import Mathlib

/-!
# Speculate Hub - verification of the transactional core

Shallow embedding of the prediction-market backend (NestJS/Supabase) in
Lean 4, together with theorems settling the specification claims.

Conventions of the embedding:
* Monetary quantities, share quantities and prices are modelled as real
  numbers.  The backend computes with JavaScript numbers and `decimal.js`
  decimals and rounds observable outputs to 6 fractional digits; the
  embedding computes exactly over `ℝ` and applies the same 6-digit
  rounding (`round6`, half-up as in `Decimal.toFixed`).
* Database rows become Lean structures; `id` columns, timestamps and
  free-form descriptions are dropped since no claim mentions them.
* Fallible operations return `Except`.  For the trade executor, where a
  claim concerns what happens when a database write fails mid-sequence,
  the store is given a failure oracle (`DbOracle`): each category of
  write either succeeds or throws, exactly as the corresponding
  `supabase` call either returns data or makes the service throw.
  An error raised mid-trade carries the mutated world, since the backend
  has no transaction wrapping and writes performed before the throw
  persist.
* The market lifecycle and settlement follow `markets.service.ts` /
  `trades.service.ts`; the wallet ledger follows `wallets.service.ts`;
  positions follow `positions.service.ts`; the LMSR engine follows
  `amm.service.ts`.
-/

namespace SpeculateHub

/-- 6-fractional-digit rounding, half-up for the nonnegative values the
backend produces, as `decimal.js` `toFixed(6)` with `ROUND_HALF_UP`. -/
noncomputable def round6 (x : ℝ) : ℝ := (⌊x * 1000000 + 1 / 2⌋ : ℤ) / 1000000

/-- Market lifecycle status (`markets.status` column). -/
inductive Status where
  | draft | active | suspended | resolved | cancelled
deriving DecidableEq, Repr

/-- Binary market outcome. -/
inductive Outcome where
  | yes | no
deriving DecidableEq, Repr

/-- Trade side (`yes`/`no`). -/
abbrev Side := Outcome

/-- Errors surfaced by the services (NestJS exception classes, plus the
generic `Error` thrown when a supabase call fails). -/
inductive Err where
  | notFound          -- NotFoundException
  | invalidAmount     -- BadRequestException: deposit/withdraw amount <= 0
  | insufficientFunds -- BadRequestException: 余额不足
  | insufficientShares -- BadRequestException: 持仓不足 / no position
  | marketClosed      -- BadRequestException: 市场未开放交易
  | outOfWindow       -- BadRequestException: 不在交易时间内
  | invalidTrade      -- BadRequestException: malformed trade request
  | invalidTransition -- BadRequestException: 无法从 X 状态转换到 Y
  | notResolved       -- BadRequestException: 市场尚未结算
  | internal          -- Error: supabase write failed
deriving DecidableEq, Repr

/-! ## Market lifecycle (`markets.service.ts`, `updateStatus`) -/

/-- A market row, restricted to the fields the verified operations read
or write (`markets` table). -/
structure Market where
  status : Status
  outcome : Option Outcome
  yesShares : ℝ
  noShares : ℝ
  liquidity : ℝ
  volume : ℝ
  startTime : ℝ
  endTime : ℝ

/-- The `validTransitions` record of `MarketsService.updateStatus`. -/
def validTransitions : Status → List Status
  | .draft => [.active, .cancelled]
  | .active => [.suspended, .resolved, .cancelled]
  | .suspended => [.active, .resolved, .cancelled]
  | .resolved => []
  | .cancelled => []

/-- `MarketsService.updateStatus`: rejects a move not listed in
`validTransitions`, otherwise writes the new status. -/
def updateStatus (m : Market) (s : Status) : Except Err Market :=
  if s ∈ validTransitions m.status then
    .ok { m with status := s }
  else
    .error .invalidTransition

/-- `MarketsService.resolveMarket`: only an active or suspended market can
be resolved; sets status, outcome and the resolution timestamp. -/
def resolveMarket (m : Market) (o : Outcome) : Except Err Market :=
  if m.status = .active ∨ m.status = .suspended then
    .ok { m with status := .resolved, outcome := some o }
  else
    .error .invalidTransition

/-! ## Wallet ledger (`wallets.service.ts`) -/

/-- A wallet row (`wallets` table): only the balance takes part in the
verified operations. -/
structure Wallet where
  balance : ℝ

/-- Wallet transaction kinds (`wallet_transactions.type`). -/
inductive TxKind where
  | deposit | withdraw | trade | settlement | refund
deriving DecidableEq, Repr

/-- A `wallet_transactions` row as written by `recordTransaction`. -/
structure WalletTx where
  kind : TxKind
  amount : ℝ
  balanceBefore : ℝ
  balanceAfter : ℝ

namespace Wallets

/-- `WalletsService.deposit`: rejects non-positive amounts, credits the
balance and records one transaction row. -/
def deposit (w : Wallet) (amount : ℝ) [Decidable (amount ≤ 0)] :
    Except Err (Wallet × WalletTx) :=
  if amount ≤ 0 then .error .invalidAmount
  else
    .ok ({ balance := w.balance + amount },
      { kind := .deposit, amount := amount,
        balanceBefore := w.balance, balanceAfter := w.balance + amount })

/-- `WalletsService.withdraw`: rejects non-positive amounts, fails with
InsufficientFunds when the balance cannot cover it, otherwise debits and
records one transaction row with a negative amount. -/
def withdraw (w : Wallet) (amount : ℝ)
    [Decidable (amount ≤ 0)] [Decidable (w.balance < amount)] :
    Except Err (Wallet × WalletTx) :=
  if amount ≤ 0 then .error .invalidAmount
  else if w.balance < amount then .error .insufficientFunds
  else
    .ok ({ balance := w.balance - amount },
      { kind := .withdraw, amount := -amount,
        balanceBefore := w.balance, balanceAfter := w.balance - amount })

/-- `WalletsService.deductForTrade`: like `withdraw` but with kind
`trade` and no positivity check. -/
def deductForTrade (w : Wallet) (amount : ℝ)
    [Decidable (w.balance < amount)] :
    Except Err (Wallet × WalletTx) :=
  if w.balance < amount then .error .insufficientFunds
  else
    .ok ({ balance := w.balance - amount },
      { kind := .trade, amount := -amount,
        balanceBefore := w.balance, balanceAfter := w.balance - amount })

/-- `WalletsService.addFromTrade`: unconditional credit with kind
`trade`. -/
def addFromTrade (w : Wallet) (amount : ℝ) :
    Except Err (Wallet × WalletTx) :=
  .ok ({ balance := w.balance + amount },
    { kind := .trade, amount := amount,
      balanceBefore := w.balance, balanceAfter := w.balance + amount })

/-- `WalletsService.settlePosition`: unconditional credit with kind
`settlement`. -/
def settlePosition (w : Wallet) (amount : ℝ) :
    Except Err (Wallet × WalletTx) :=
  .ok ({ balance := w.balance + amount },
    { kind := .settlement, amount := amount,
      balanceBefore := w.balance, balanceAfter := w.balance + amount })

end Wallets

end SpeculateHub

namespace SpeculateHub

/-- The ledger bookkeeping contract of a single successful wallet
operation: the recorded row brackets the balance change and the new
balance is the recorded `balance_after`. -/
def TxContract (w : Wallet) (r : Wallet × WalletTx) : Prop :=
  r.2.balanceBefore = w.balance ∧
  r.2.balanceAfter = r.1.balance ∧
  r.2.balanceAfter = r.2.balanceBefore + r.2.amount

/-- **C6.** Every wallet operation that changes a balance records exactly
one transaction row with `balance_before` the old balance,
`balance_after` the new balance and `balance_after = balance_before +
amount` with the amount signed; the debiting operations fail with
InsufficientFunds, writing nothing, when the amount exceeds the balance;
deposits and withdrawals of a non-positive amount fail with
InvalidAmount. -/
theorem wallet_ops_contract (w : Wallet) (amount : ℝ) :
    (0 < amount → ∀ r, Wallets.deposit w amount = .ok r →
      TxContract w r ∧ r.2.amount = amount ∧ r.2.kind = .deposit) ∧
    (amount ≤ 0 → Wallets.deposit w amount = .error .invalidAmount) ∧
    (0 < amount → w.balance < amount →
      Wallets.withdraw w amount = .error .insufficientFunds) ∧
    (0 < amount → ∀ r, Wallets.withdraw w amount = .ok r →
      TxContract w r ∧ r.2.amount = -amount ∧ r.2.kind = .withdraw) ∧
    (amount ≤ 0 → Wallets.withdraw w amount = .error .invalidAmount) ∧
    (w.balance < amount →
      Wallets.deductForTrade w amount = .error .insufficientFunds) ∧
    (∀ r, Wallets.deductForTrade w amount = .ok r →
      TxContract w r ∧ r.2.amount = -amount ∧ r.2.kind = .trade) ∧
    (∀ r, Wallets.addFromTrade w amount = .ok r →
      TxContract w r ∧ r.2.amount = amount ∧ r.2.kind = .trade) ∧
    (∀ r, Wallets.settlePosition w amount = .ok r →
      TxContract w r ∧ r.2.amount = amount ∧ r.2.kind = .settlement) := by
  refine ⟨?_, ?_, ?_, ?_, ?_, ?_, ?_, ?_, ?_⟩ <;>
    simp only [Wallets.deposit, Wallets.withdraw, Wallets.deductForTrade,
      Wallets.addFromTrade, Wallets.settlePosition, TxContract]
  · intro h r
    rw [if_neg (not_le.mpr h)]
    rintro ⟨rfl⟩
    simp
  · intro h; rw [if_pos h]
  · intro h h2; rw [if_neg (not_le.mpr h), if_pos h2]
  · intro h r
    rw [if_neg (not_le.mpr h)]
    split
    · rintro ⟨⟩
    · rintro ⟨rfl⟩; simp; ring
  · intro h; rw [if_pos h]
  · intro h; rw [if_pos h]
  · intro r
    split
    · rintro ⟨⟩
    · rintro ⟨rfl⟩; simp; ring
  · rintro r ⟨rfl⟩; simp
  · rintro r ⟨rfl⟩; simp

/-- Witness for C6: the concrete effect of each wallet operation, with
every hypothesis of the contract theorem discharged at concrete
balances and amounts. -/
theorem wallet_ops_contract_witness :
    (0 < (30:ℝ) ∧
      (TxContract ⟨100⟩ (⟨130⟩, ⟨.deposit, 30, 100, 130⟩) ∧
        (⟨.deposit, (30:ℝ), 100, 130⟩ : WalletTx).amount = 30 ∧
        (⟨.deposit, (30:ℝ), 100, 130⟩ : WalletTx).kind = .deposit)) ∧
    ((-5:ℝ) ≤ 0 ∧ Wallets.deposit ⟨100⟩ (-5) = .error .invalidAmount) ∧
    (0 < (30:ℝ) ∧ (Wallet.mk 10).balance < 30 ∧
      Wallets.withdraw ⟨10⟩ 30 = .error .insufficientFunds) ∧
    (0 < (30:ℝ) ∧
      (TxContract ⟨100⟩ (⟨70⟩, ⟨.withdraw, -30, 100, 70⟩) ∧
        (⟨.withdraw, (-30:ℝ), 100, 70⟩ : WalletTx).amount = -30 ∧
        (⟨.withdraw, (-30:ℝ), 100, 70⟩ : WalletTx).kind = .withdraw)) ∧
    ((Wallet.mk 10).balance < 30 ∧
      Wallets.deductForTrade ⟨10⟩ 30 = .error .insufficientFunds) ∧
    (TxContract ⟨100⟩ (⟨70⟩, ⟨.trade, -30, 100, 70⟩) ∧
      (⟨.trade, (-30:ℝ), 100, 70⟩ : WalletTx).amount = -30 ∧
      (⟨.trade, (-30:ℝ), 100, 70⟩ : WalletTx).kind = .trade) ∧
    (TxContract ⟨100⟩ (⟨130⟩, ⟨.trade, 30, 100, 130⟩) ∧
      (⟨.trade, (30:ℝ), 100, 130⟩ : WalletTx).amount = 30 ∧
      (⟨.trade, (30:ℝ), 100, 130⟩ : WalletTx).kind = .trade) ∧
    (TxContract ⟨100⟩ (⟨130⟩, ⟨.settlement, 30, 100, 130⟩) ∧
      (⟨.settlement, (30:ℝ), 100, 130⟩ : WalletTx).amount = 30 ∧
      (⟨.settlement, (30:ℝ), 100, 130⟩ : WalletTx).kind = .settlement) :=
  ⟨⟨by norm_num, (wallet_ops_contract ⟨100⟩ 30).1 (by norm_num) _
      (by norm_num [Wallets.deposit])⟩,
    ⟨by norm_num, (wallet_ops_contract ⟨100⟩ (-5)).2.1 (by norm_num)⟩,
    ⟨by norm_num, by norm_num,
      (wallet_ops_contract ⟨10⟩ 30).2.2.1 (by norm_num) (by norm_num)⟩,
    ⟨by norm_num, (wallet_ops_contract ⟨100⟩ 30).2.2.2.1 (by norm_num) _
      (by norm_num [Wallets.withdraw])⟩,
    ⟨by norm_num, (wallet_ops_contract ⟨10⟩ 30).2.2.2.2.2.1 (by norm_num)⟩,
    (wallet_ops_contract ⟨100⟩ 30).2.2.2.2.2.2.1 _
      (by norm_num [Wallets.deductForTrade]),
    (wallet_ops_contract ⟨100⟩ 30).2.2.2.2.2.2.2.1 _
      (by norm_num [Wallets.addFromTrade]),
    (wallet_ops_contract ⟨100⟩ 30).2.2.2.2.2.2.2.2 _
      (by norm_num [Wallets.settlePosition])⟩

/-- The transition pairs the claim C5 lists as the allowed ones. -/
def claimedTransitions : List (Status × Status) :=
  [(.draft, .active), (.draft, .cancelled),
   (.active, .suspended), (.active, .resolved), (.active, .cancelled),
   (.suspended, .active), (.suspended, .resolved), (.suspended, .cancelled)]

/-- **C5.** `updateStatus` succeeds exactly on the eight listed
(current, requested) pairs — iff: every listed pair succeeds, changing
only the status field, every successful run is on a listed pair with
only the status changed, and any other pair fails with
InvalidTransition, returning no updated market, so the market row is
left unchanged. -/
theorem updateStatus_characterization (m : Market) (s : Status) :
    ((m.status, s) ∈ claimedTransitions →
      updateStatus m s = .ok { m with status := s }) ∧
    (∀ m2, updateStatus m s = .ok m2 →
      (m.status, s) ∈ claimedTransitions ∧ m2 = { m with status := s }) ∧
    ((m.status, s) ∉ claimedTransitions →
      updateStatus m s = .error .invalidTransition) := by
  have hmem : s ∈ validTransitions m.status ↔
      (m.status, s) ∈ claimedTransitions := by
    cases hs : m.status <;> cases s <;> simp [validTransitions, claimedTransitions]
  refine ⟨?_, ?_, ?_⟩
  · intro hin
    unfold updateStatus
    rw [if_pos (hmem.mpr hin)]
  · intro m2 h
    unfold updateStatus at h
    split at h
    · next hin => exact ⟨hmem.mp hin, by injection h with h2; exact h2.symm⟩
    · exact absurd h (by simp)
  · intro hout
    unfold updateStatus
    rw [if_neg (fun hin => hout (hmem.mp hin))]

/-- Witness for C5: the legal transition draft to active succeeds on a
concrete market, producing the row with only the status changed, and the
illegal transition resolved to active is rejected. -/
theorem updateStatus_characterization_witness :
    ((Status.draft, Status.active) ∈ claimedTransitions ∧
      updateStatus ⟨.draft, none, 0, 0, 1000, 0, 0, 1⟩ .active =
        .ok { Market.mk .draft none 0 0 1000 0 0 1 with status := Status.active }) ∧
    ((Status.resolved, Status.active) ∉ claimedTransitions ∧
      updateStatus ⟨.resolved, some .yes, 0, 0, 1000, 0, 0, 1⟩ .active =
        .error .invalidTransition) :=
  ⟨⟨by decide,
      (updateStatus_characterization ⟨.draft, none, 0, 0, 1000, 0, 0, 1⟩ .active).1
        (by decide)⟩,
    by decide,
    (updateStatus_characterization ⟨.resolved, some .yes, 0, 0, 1000, 0, 0, 1⟩ .active).2.2
      (by decide)⟩

end SpeculateHub

namespace SpeculateHub

/-! ## LMSR pricing engine (`amm.service.ts`) -/

namespace AMM

/-- `AMMService.FEE_RATE` (2%). -/
noncomputable def feeRate : ℝ := 2 / 100

/-- The AMM state handed to the pricing functions. -/
structure AMMState where
  yesShares : ℝ
  noShares : ℝ

/-- The LMSR cost function `C(q_yes, q_no) = b * ln(e^(q_yes/b) + e^(q_no/b))`
(`AMMService.cost`). -/
noncomputable def cost (qYes qNo b : ℝ) : ℝ :=
  b * Real.log (Real.exp (qYes / b) + Real.exp (qNo / b))

/-- The pair returned by `getCurrentPrices`. -/
structure Prices where
  yesPrice : ℝ
  noPrice : ℝ

/-- The yes price before output rounding,
`e^(q_yes/b) / (e^(q_yes/b) + e^(q_no/b))`. -/
noncomputable def yesPriceExact (s : AMMState) (b : ℝ) : ℝ :=
  Real.exp (s.yesShares / b) /
    (Real.exp (s.yesShares / b) + Real.exp (s.noShares / b))

/-- The no price before output rounding. -/
noncomputable def noPriceExact (s : AMMState) (b : ℝ) : ℝ :=
  Real.exp (s.noShares / b) /
    (Real.exp (s.yesShares / b) + Real.exp (s.noShares / b))

/-- `AMMService.getCurrentPrices`: both instantaneous LMSR prices, each
rounded to 6 fractional digits on output. -/
noncomputable def getCurrentPrices (s : AMMState) (b : ℝ) : Prices :=
  { yesPrice := round6 (yesPriceExact s b)
    noPrice := round6 (noPriceExact s b) }

end AMM

/-! ### Generic facts about the 6-digit output rounding -/

theorem round6_mono {x y : ℝ} (h : x ≤ y) : round6 x ≤ round6 y := by
  unfold round6
  have h1 : (⌊x * 1000000 + 1 / 2⌋ : ℤ) ≤ ⌊y * 1000000 + 1 / 2⌋ :=
    Int.floor_le_floor (by nlinarith)
  have h2 : ((⌊x * 1000000 + 1 / 2⌋ : ℤ) : ℝ) ≤ ((⌊y * 1000000 + 1 / 2⌋ : ℤ) : ℝ) := by
    exact_mod_cast h1
  linarith

theorem round6_intMul (k : ℤ) : round6 ((k : ℝ) / 1000000) = (k : ℝ) / 1000000 := by
  unfold round6
  have harg : (k : ℝ) / 1000000 * 1000000 + 1 / 2 = 1 / 2 + (k : ℝ) := by ring
  rw [harg, Int.floor_add_int]
  have hhalf : (⌊(1 : ℝ) / 2⌋ : ℤ) = 0 := by
    rw [Int.floor_eq_iff]
    norm_num
  rw [hhalf]
  push_cast
  ring

theorem round6_one : round6 (1 : ℝ) = 1 := by
  have h := round6_intMul 1000000
  norm_num at h
  exact h

theorem round6_half : round6 ((1 : ℝ) / 2) = 1 / 2 := by
  have h := round6_intMul 500000
  norm_num at h
  exact h

theorem round6_nonneg {x : ℝ} (h : 0 ≤ x) : 0 ≤ round6 x := by
  have h0 := round6_intMul 0
  norm_num at h0
  have := round6_mono h
  rwa [h0] at this

theorem round6_gt (x : ℝ) : x - 1 / 2000000 < round6 x := by
  unfold round6
  have h := Int.lt_floor_add_one (x * 1000000 + 1 / 2)
  nlinarith

theorem round6_le (x : ℝ) : round6 x ≤ x + 1 / 2000000 := by
  unfold round6
  have h := Int.floor_le (x * 1000000 + 1 / 2)
  nlinarith

/-- The two rounded prices sum to exactly 1 unless the half-up tie is
hit, in which case they sum to 1 + 10⁻⁶. -/
theorem round6_complement_sum (x : ℝ) :
    round6 x + round6 (1 - x) = 1 ∨
    round6 x + round6 (1 - x) = 1 + 1 / 1000000 := by
  unfold round6
  set a : ℝ := x * 1000000 + 1 / 2 with ha
  have harg : (1 - x) * 1000000 + 1 / 2 = ((1000001 : ℤ) : ℝ) - a := by
    push_cast; ring
  have hfl : (⌊((1000001 : ℤ) : ℝ) - a⌋ : ℤ) = 1000001 - ⌈a⌉ := by
    rw [show ((1000001 : ℤ) : ℝ) - a = -(a - (1000001 : ℤ)) by ring,
      Int.floor_neg, Int.ceil_sub_int]
    ring
  rw [harg, hfl]
  by_cases hint : a = ((⌊a⌋ : ℤ) : ℝ)
  · right
    have hceil : ⌈a⌉ = ⌊a⌋ := by
      rw [hint, Int.ceil_intCast, Int.floor_intCast]
    rw [hceil]
    push_cast
    ring
  · left
    have hceil : ⌈a⌉ = ⌊a⌋ + 1 := by
      have h1 : (⌊a⌋ : ℝ) < a := lt_of_le_of_ne (Int.floor_le a) (Ne.symm hint)
      have h2 : ⌈a⌉ ≤ ⌊a⌋ + 1 := Int.ceil_le_floor_add_one a
      have h3 : ⌊a⌋ < ⌈a⌉ := by
        have h4 := Int.le_ceil a
        exact_mod_cast h1.trans_le h4
      omega
    rw [hceil]
    push_cast
    ring

namespace AMM

theorem yesPriceExact_pos (s : AMMState) (b : ℝ) : 0 < yesPriceExact s b :=
  div_pos (Real.exp_pos _) (by positivity)

theorem yesPriceExact_lt_one (s : AMMState) (b : ℝ) : yesPriceExact s b < 1 := by
  unfold yesPriceExact
  rw [div_lt_one (by positivity)]
  nlinarith [Real.exp_pos (s.noShares / b)]

theorem noPriceExact_eq (s : AMMState) (b : ℝ) :
    noPriceExact s b = 1 - yesPriceExact s b := by
  unfold noPriceExact yesPriceExact
  have h : 0 < Real.exp (s.yesShares / b) + Real.exp (s.noShares / b) := by positivity
  field_simp

end AMM

/-- Counterexample to C7 as stated.  At the reachable state
`q_yes = 0, q_no = 2000, b = 100` the rounded yes price is `0`, which is
not strictly inside `(0,1)`; and at a state whose exact yes price is the
rounding tie `5·10⁻⁷` the two rounded prices sum to `1 + 10⁻⁶`, farther
from 1 than `10⁻⁹`. -/
theorem getCurrentPrices_claim_cex :
    (AMM.getCurrentPrices ⟨0, 2000⟩ 100).yesPrice = 0 ∧
    ¬ (0 < (AMM.getCurrentPrices ⟨0, 2000⟩ 100).yesPrice) ∧
    |(AMM.getCurrentPrices ⟨0, 100 * Real.log 1999999⟩ 100).yesPrice +
        (AMM.getCurrentPrices ⟨0, 100 * Real.log 1999999⟩ 100).noPrice - 1| >
      1 / 1000000000 := by
  have hexp20 : Real.exp 20 > 2000000 := by
    have h1 : (2.7 : ℝ) < Real.exp 1 := by
      have := Real.exp_one_gt_d9
      linarith
    have h2 : (2.7 : ℝ) ^ (20 : ℕ) < Real.exp 1 ^ (20 : ℕ) :=
      pow_lt_pow_left₀ h1 (by norm_num) (by norm_num)
    have h3 : Real.exp 1 ^ (20 : ℕ) = Real.exp 20 := by
      rw [← Real.exp_nat_mul]; norm_num
    nlinarith
  have hx : AMM.yesPriceExact ⟨0, 2000⟩ 100 = 1 / (1 + Real.exp 20) := by
    unfold AMM.yesPriceExact
    norm_num
  have hzero : (AMM.getCurrentPrices ⟨0, 2000⟩ 100).yesPrice = 0 := by
    show round6 (AMM.yesPriceExact ⟨0, 2000⟩ 100) = 0
    rw [hx]
    unfold round6
    have hpos : (0 : ℝ) < 1 + Real.exp 20 := by positivity
    have hlt : 1 / (1 + Real.exp 20) * 1000000 + 1 / 2 < 1 := by
      rw [div_mul_eq_mul_div, div_add' _ _ _ (ne_of_gt hpos), div_lt_one hpos]
      linarith
    have hge : (0 : ℝ) ≤ 1 / (1 + Real.exp 20) * 1000000 + 1 / 2 := by positivity
    have hfl : (⌊1 / (1 + Real.exp 20) * 1000000 + 1 / 2⌋ : ℤ) = 0 := by
      rw [Int.floor_eq_iff] <;> push_cast <;> constructor <;> linarith
    rw [hfl]
    norm_num
  refine ⟨hzero, by rw [hzero]; norm_num, ?_⟩
  have hlog : Real.exp (100 * Real.log 1999999 / 100) = (1999999 : ℝ) := by
    have harg : (100 : ℝ) * Real.log 1999999 / 100 = Real.log 1999999 := by
      field_simp
    rw [harg]
    exact Real.exp_log (by norm_num)
  have hy : AMM.yesPriceExact ⟨0, 100 * Real.log 1999999⟩ 100 = 1 / 2000000 := by
    show Real.exp ((0 : ℝ) / 100) /
      (Real.exp ((0 : ℝ) / 100) + Real.exp (100 * Real.log 1999999 / 100)) = 1 / 2000000
    rw [hlog]
    norm_num
  have hn : AMM.noPriceExact ⟨0, 100 * Real.log 1999999⟩ 100 = 1999999 / 2000000 := by
    rw [AMM.noPriceExact_eq, hy]
    norm_num
  show |round6 (AMM.yesPriceExact ⟨0, 100 * Real.log 1999999⟩ 100) +
      round6 (AMM.noPriceExact ⟨0, 100 * Real.log 1999999⟩ 100) - 1| > 1 / 1000000000
  rw [hy, hn]
  have h1 : round6 ((1 : ℝ) / 2000000) = 1 / 1000000 := by
    unfold round6
    have harg : (1 : ℝ) / 2000000 * 1000000 + 1 / 2 = 1 := by norm_num
    rw [harg, show (1 : ℝ) = ((1 : ℤ) : ℝ) by norm_num, Int.floor_intCast]
  have h2 : round6 ((1999999 : ℝ) / 2000000) = 1 := by
    unfold round6
    have harg : (1999999 : ℝ) / 2000000 * 1000000 + 1 / 2 = 1000000 := by norm_num
    rw [harg, show (1000000 : ℝ) = ((1000000 : ℤ) : ℝ) by norm_num, Int.floor_intCast]
    norm_num
  rw [h1, h2]
  rw [abs_of_pos] <;> norm_num

/-- **C7, amended.** For every AMM state and liquidity, the rounded
prices returned by `getCurrentPrices` each lie in the closed interval
[0,1] (the boundary is attained at extreme states, so the open interval
of the original claim fails); their sum is exactly 1 except when the
exact yes price falls on the half-up rounding tie, where it is
1 + 10⁻⁶ — so always within 10⁻⁶ of 1 though not within 10⁻⁹; and when
`yesShares = noShares` the yes price is exactly 0.5. -/
theorem getCurrentPrices_amended (s : AMM.AMMState) (b : ℝ) :
    (0 ≤ (AMM.getCurrentPrices s b).yesPrice ∧
      (AMM.getCurrentPrices s b).yesPrice ≤ 1 ∧
      0 ≤ (AMM.getCurrentPrices s b).noPrice ∧
      (AMM.getCurrentPrices s b).noPrice ≤ 1) ∧
    ((AMM.getCurrentPrices s b).yesPrice + (AMM.getCurrentPrices s b).noPrice = 1 ∨
      (AMM.getCurrentPrices s b).yesPrice + (AMM.getCurrentPrices s b).noPrice =
        1 + 1 / 1000000) ∧
    (s.yesShares = s.noShares → (AMM.getCurrentPrices s b).yesPrice = 1 / 2) := by
  have hxpos := AMM.yesPriceExact_pos s b
  have hxlt := AMM.yesPriceExact_lt_one s b
  have hno := AMM.noPriceExact_eq s b
  refine ⟨⟨?_, ?_, ?_, ?_⟩, ?_, ?_⟩
  · exact round6_nonneg hxpos.le
  · calc round6 (AMM.yesPriceExact s b) ≤ round6 1 := round6_mono hxlt.le
      _ = 1 := round6_one
  · show 0 ≤ round6 (AMM.noPriceExact s b)
    rw [hno]
    exact round6_nonneg (by linarith)
  · show round6 (AMM.noPriceExact s b) ≤ 1
    rw [hno]
    calc round6 (1 - AMM.yesPriceExact s b) ≤ round6 1 := round6_mono (by linarith)
      _ = 1 := round6_one
  · show round6 (AMM.yesPriceExact s b) + round6 (AMM.noPriceExact s b) = 1 ∨
      round6 (AMM.yesPriceExact s b) + round6 (AMM.noPriceExact s b) = 1 + 1 / 1000000
    rw [hno]
    exact round6_complement_sum _
  · intro heq
    show round6 (AMM.yesPriceExact s b) = 1 / 2
    have hval : AMM.yesPriceExact s b = 1 / 2 := by
      unfold AMM.yesPriceExact
      rw [heq]
      have hne : Real.exp (s.noShares / b) ≠ 0 := Real.exp_ne_zero _
      field_simp
      ring
    rw [hval, round6_half]

/-- Witness for C7 (amended): the fresh state with equal share counts at
liquidity 100 — prices in [0,1], and the equal-shares hypothesis
discharged giving exactly 0.5. -/
theorem getCurrentPrices_amended_witness :
    (0 ≤ (AMM.getCurrentPrices ⟨0, 0⟩ 100).yesPrice ∧
      (AMM.getCurrentPrices ⟨0, 0⟩ 100).yesPrice ≤ 1 ∧
      0 ≤ (AMM.getCurrentPrices ⟨0, 0⟩ 100).noPrice ∧
      (AMM.getCurrentPrices ⟨0, 0⟩ 100).noPrice ≤ 1) ∧
    (AMM.AMMState.mk 0 0).yesShares = (AMM.AMMState.mk 0 0).noShares ∧
    (AMM.getCurrentPrices ⟨0, 0⟩ 100).yesPrice = 1 / 2 :=
  ⟨(getCurrentPrices_amended ⟨0, 0⟩ 100).1, rfl,
    (getCurrentPrices_amended ⟨0, 0⟩ 100).2.2 rfl⟩

end SpeculateHub

namespace SpeculateHub

namespace AMM

/-! ### Buy quote (`AMMService.calculateBuyCost`) -/

/-- The result record of `calculateBuyCost`. -/
structure TradeResult where
  sharesReceived : ℝ
  cost : ℝ
  avgPrice : ℝ
  newYesShares : ℝ
  newNoShares : ℝ
  priceImpact : ℝ

/-- New yes-quantity after buying `shares` on `side`. -/
noncomputable def buyNewQYes (s : AMMState) (side : Side) (shares : ℝ) : ℝ :=
  if side = .yes then s.yesShares + shares else s.yesShares

/-- New no-quantity after buying `shares` on `side`. -/
noncomputable def buyNewQNo (s : AMMState) (side : Side) (shares : ℝ) : ℝ :=
  if side = .yes then s.noShares else s.noShares + shares

/-- The raw (fee-free) LMSR cost of a buy: `C(new) - C(current)`. -/
noncomputable def rawBuyCost (s : AMMState) (side : Side) (shares b : ℝ) : ℝ :=
  cost (buyNewQYes s side shares) (buyNewQNo s side shares) b -
    cost s.yesShares s.noShares b

/-- `AMMService.calculateBuyCost`: raw cost plus the 2% fee, average
price per share, the new AMM state and the price impact; cost and
average price are rounded to 6 digits on output. -/
noncomputable def calculateBuyCost (s : AMMState) (side : Side) (shares b : ℝ) :
    TradeResult :=
  let rawCost := rawBuyCost s side shares b
  let fee := rawCost * feeRate
  let totalCost := rawCost + fee
  let avgPrice := totalCost / shares
  let oldPrices := getCurrentPrices s b
  let newPrices := getCurrentPrices ⟨buyNewQYes s side shares, buyNewQNo s side shares⟩ b
  let priceImpact :=
    if side = .yes then
      (newPrices.yesPrice - oldPrices.yesPrice) / oldPrices.yesPrice
    else
      (newPrices.noPrice - oldPrices.noPrice) / oldPrices.noPrice
  { sharesReceived := shares
    cost := round6 totalCost
    avgPrice := round6 avgPrice
    newYesShares := buyNewQYes s side shares
    newNoShares := buyNewQNo s side shares
    priceImpact := |priceImpact| }

/-! ### Bounds on the raw LMSR cost -/

theorem logSumExp_shift_pos (qA qB d b : ℝ) (hb : 0 < b) (hd : 0 < d) :
    0 < b * (Real.log (Real.exp ((qA + d) / b) + Real.exp (qB / b)) -
      Real.log (Real.exp (qA / b) + Real.exp (qB / b))) := by
  have hY : 0 < Real.exp (qA / b) + Real.exp (qB / b) := by positivity
  have hsplit : Real.exp ((qA + d) / b) = Real.exp (qA / b) * Real.exp (d / b) := by
    rw [← Real.exp_add, ← add_div]
  have hec : 1 < Real.exp (d / b) := by
    rw [Real.one_lt_exp_iff]
    positivity
  have hlt : Real.exp (qA / b) + Real.exp (qB / b) <
      Real.exp ((qA + d) / b) + Real.exp (qB / b) := by
    rw [hsplit]
    nlinarith [Real.exp_pos (qA / b)]
  have hlog := Real.log_lt_log hY hlt
  nlinarith

theorem logSumExp_shift_lt (qA qB d b : ℝ) (hb : 0 < b) (hd : 0 < d) :
    b * (Real.log (Real.exp ((qA + d) / b) + Real.exp (qB / b)) -
      Real.log (Real.exp (qA / b) + Real.exp (qB / b))) < d := by
  have hY : 0 < Real.exp (qA / b) + Real.exp (qB / b) := by positivity
  have hX : 0 < Real.exp ((qA + d) / b) + Real.exp (qB / b) := by positivity
  have hsplit : Real.exp ((qA + d) / b) = Real.exp (qA / b) * Real.exp (d / b) := by
    rw [← Real.exp_add, ← add_div]
  have hec : 1 < Real.exp (d / b) := by
    rw [Real.one_lt_exp_iff]
    positivity
  have hlt : Real.exp ((qA + d) / b) + Real.exp (qB / b) <
      (Real.exp (qA / b) + Real.exp (qB / b)) * Real.exp (d / b) := by
    rw [hsplit]
    nlinarith [Real.exp_pos (qB / b)]
  have hlog := Real.log_lt_log hX hlt
  rw [Real.log_mul (ne_of_gt hY) (Real.exp_ne_zero _), Real.log_exp] at hlog
  have hdb : Real.log (Real.exp ((qA + d) / b) + Real.exp (qB / b)) -
      Real.log (Real.exp (qA / b) + Real.exp (qB / b)) < d / b := by linarith
  have := mul_lt_mul_of_pos_left hdb hb
  rwa [mul_div_cancel₀ _ (ne_of_gt hb)] at this

theorem rawBuyCost_pos (s : AMMState) (side : Side) (shares b : ℝ)
    (hb : 0 < b) (hs : 0 < shares) : 0 < rawBuyCost s side shares b := by
  unfold rawBuyCost cost buyNewQYes buyNewQNo
  cases side with
  | yes =>
      have h := logSumExp_shift_pos s.yesShares s.noShares shares b hb hs
      simp only [show (Outcome.yes = Outcome.yes) = True by simp, if_true]
      nlinarith
  | no =>
      have h := logSumExp_shift_pos s.noShares s.yesShares shares b hb hs
      simp only [show (Outcome.no = Outcome.yes) = False by simp, if_false]
      calc (0:ℝ) < b * (Real.log (Real.exp ((s.noShares + shares) / b) + Real.exp (s.yesShares / b)) -
            Real.log (Real.exp (s.noShares / b) + Real.exp (s.yesShares / b))) := h
        _ = b * Real.log (Real.exp (s.yesShares / b) + Real.exp ((s.noShares + shares) / b)) -
            b * Real.log (Real.exp (s.yesShares / b) + Real.exp (s.noShares / b)) := by
            rw [add_comm (Real.exp ((s.noShares + shares) / b)),
              add_comm (Real.exp (s.noShares / b))]
            ring

theorem rawBuyCost_lt (s : AMMState) (side : Side) (shares b : ℝ)
    (hb : 0 < b) (hs : 0 < shares) : rawBuyCost s side shares b < shares := by
  unfold rawBuyCost cost buyNewQYes buyNewQNo
  cases side with
  | yes =>
      have h := logSumExp_shift_lt s.yesShares s.noShares shares b hb hs
      simp only [show (Outcome.yes = Outcome.yes) = True by simp, if_true]
      nlinarith
  | no =>
      have h := logSumExp_shift_lt s.noShares s.yesShares shares b hb hs
      simp only [show (Outcome.no = Outcome.yes) = False by simp, if_false]
      calc b * Real.log (Real.exp (s.yesShares / b) + Real.exp ((s.noShares + shares) / b)) -
            b * Real.log (Real.exp (s.yesShares / b) + Real.exp (s.noShares / b))
          = b * (Real.log (Real.exp ((s.noShares + shares) / b) + Real.exp (s.yesShares / b)) -
            Real.log (Real.exp (s.noShares / b) + Real.exp (s.yesShares / b))) := by
            rw [add_comm (Real.exp (s.yesShares / b)) (Real.exp ((s.noShares + shares) / b)),
              add_comm (Real.exp (s.yesShares / b)) (Real.exp (s.noShares / b))]
            ring
        _ < shares := h

end AMM

end SpeculateHub

namespace SpeculateHub

theorem feeRate_eq : AMM.feeRate = 2 / 100 := rfl

theorem round6_fee_cap : round6 ((51 : ℝ) / 50) = 51 / 50 := by
  have h := round6_intMul 1020000
  norm_num at h
  exact h

/-- The buy average price quoted by the engine is the raw per-share cost
inflated by the 2% fee, hence lies in [0, 1.02]. -/
theorem calculateBuyCost_avgPrice_bounds (s : AMM.AMMState) (side : Side)
    (shares b : ℝ) (hb : 0 < b) (hs : 0 < shares) :
    0 ≤ (AMM.calculateBuyCost s side shares b).avgPrice ∧
    (AMM.calculateBuyCost s side shares b).avgPrice ≤ 51 / 50 := by
  have hraw_pos := AMM.rawBuyCost_pos s side shares b hb hs
  have hraw_lt := AMM.rawBuyCost_lt s side shares b hb hs
  have havg : (AMM.calculateBuyCost s side shares b).avgPrice =
      round6 ((AMM.rawBuyCost s side shares b +
        AMM.rawBuyCost s side shares b * AMM.feeRate) / shares) := rfl
  rw [havg]
  constructor
  · apply round6_nonneg
    rw [feeRate_eq]
    positivity
  · have h2 : (AMM.rawBuyCost s side shares b +
        AMM.rawBuyCost s side shares b * AMM.feeRate) / shares ≤ 51 / 50 := by
      rw [feeRate_eq, div_le_iff₀ hs]
      nlinarith
    calc round6 ((AMM.rawBuyCost s side shares b +
          AMM.rawBuyCost s side shares b * AMM.feeRate) / shares)
        ≤ round6 (51 / 50) := round6_mono h2
      _ = 51 / 50 := round6_fee_cap

/-! ## Positions (`positions.service.ts`) -/

namespace Positions

/-- A position row (`positions` table). -/
structure Position where
  yesShares : ℝ
  noShares : ℝ
  avgYesPrice : ℝ
  avgNoPrice : ℝ

/-- `PositionsService.createOrUpdate`, reduced to its pure row
transformation: create the row on first trade, otherwise apply the
buy/sell update to the chosen side with the volume-weighted average on
buys and `max 0` clamping of the share count. -/
noncomputable def createOrUpdate (pos : Option Position) (side : Side)
    (sharesDelta avgPrice : ℝ) (isBuy : Bool) : Position :=
  match pos with
  | none =>
      if side = .yes then
        { yesShares := sharesDelta, noShares := 0,
          avgYesPrice := avgPrice, avgNoPrice := 0 }
      else
        { yesShares := 0, noShares := sharesDelta,
          avgYesPrice := 0, avgNoPrice := avgPrice }
  | some p =>
      let currentShares := if side = .yes then p.yesShares else p.noShares
      let currentAvgPrice := if side = .yes then p.avgYesPrice else p.avgNoPrice
      let newShares :=
        if isBuy then currentShares + sharesDelta else currentShares - sharesDelta
      let newAvgPrice :=
        if isBuy then
          if 0 < newShares then
            (currentShares * currentAvgPrice + sharesDelta * avgPrice) / newShares
          else 0
        else if 0 < newShares then currentAvgPrice else 0
      if side = .yes then
        { p with yesShares := max 0 newShares, avgYesPrice := newAvgPrice }
      else
        { p with noShares := max 0 newShares, avgNoPrice := newAvgPrice }

/-- The row invariant of the amended claim C8: share counts are
nonnegative, average prices lie in [0, 1.02] (0 when the side is empty). -/
def PosInvariant (p : Position) : Prop :=
  0 ≤ p.yesShares ∧ 0 ≤ p.noShares ∧
  (0 ≤ p.avgYesPrice ∧ p.avgYesPrice ≤ 51 / 50) ∧
  (0 ≤ p.avgNoPrice ∧ p.avgNoPrice ≤ 51 / 50) ∧
  (p.yesShares = 0 → p.avgYesPrice = 0) ∧
  (p.noShares = 0 → p.avgNoPrice = 0)

/-- The side not traded keeps its share count and average price (a
missing row counts as the zero row). -/
def oppositeUntouched (pos : Option Position) (side : Side) (q : Position) : Prop :=
  match side with
  | .yes =>
      q.noShares = (match pos with | some p => p.noShares | none => 0) ∧
      q.avgNoPrice = (match pos with | some p => p.avgNoPrice | none => 0)
  | .no =>
      q.yesShares = (match pos with | some p => p.yesShares | none => 0) ∧
      q.avgYesPrice = (match pos with | some p => p.avgYesPrice | none => 0)

end Positions

end SpeculateHub

namespace SpeculateHub

/-- Counterexample to C8 as stated.  At the state `q_yes = 1000, q_no = 0,
b = 100` the yes price is nearly 1, so the fee-inclusive buy average
price quoted by the engine exceeds 1; the upsert stores it unchanged,
producing a position with `yes_shares > 0` whose `avg_yes_price > 1`,
outside the claimed [0,1]. -/
theorem createOrUpdate_claim_cex :
    0 < (Positions.createOrUpdate none .yes 1
      ((AMM.calculateBuyCost ⟨1000, 0⟩ .yes 1 100).avgPrice) true).yesShares ∧
    1 < (Positions.createOrUpdate none .yes 1
      ((AMM.calculateBuyCost ⟨1000, 0⟩ .yes 1 100).avgPrice) true).avgYesPrice := by
  have hres : Positions.createOrUpdate none .yes 1
      ((AMM.calculateBuyCost ⟨1000, 0⟩ .yes 1 100).avgPrice) true =
      { yesShares := 1, noShares := 0,
        avgYesPrice := (AMM.calculateBuyCost ⟨1000, 0⟩ .yes 1 100).avgPrice,
        avgNoPrice := 0 } := by
    simp [Positions.createOrUpdate]
  rw [hres]
  refine ⟨by norm_num, ?_⟩
  show 1 < (AMM.calculateBuyCost ⟨1000, 0⟩ .yes 1 100).avgPrice
  have hexp10 : Real.exp 10 > 20589 := by
    have h1 : (2.7 : ℝ) < Real.exp 1 := by
      have := Real.exp_one_gt_d9
      linarith
    have h2 : (2.7 : ℝ) ^ (10 : ℕ) < Real.exp 1 ^ (10 : ℕ) :=
      pow_lt_pow_left₀ h1 (by norm_num) (by norm_num)
    have h3 : Real.exp 1 ^ (10 : ℕ) = Real.exp 10 := by
      rw [← Real.exp_nat_mul]; norm_num
    nlinarith
  have hraw : AMM.rawBuyCost ⟨1000, 0⟩ .yes 1 100 > 1 - 100 / 20589 := by
    have hform : AMM.rawBuyCost ⟨1000, 0⟩ .yes 1 100 =
        100 * Real.log (Real.exp (1001 / 100) + 1) -
        100 * Real.log (Real.exp 10 + 1) := by
      unfold AMM.rawBuyCost AMM.cost AMM.buyNewQYes AMM.buyNewQNo
      norm_num [Real.exp_zero]
    rw [hform]
    have h1 : Real.log (Real.exp (1001 / 100) + 1) > 1001 / 100 := by
      have hlt := Real.log_lt_log (Real.exp_pos ((1001 : ℝ) / 100))
        (lt_add_one (Real.exp ((1001 : ℝ) / 100)))
      rwa [Real.log_exp] at hlt
    have hexp_mul : Real.exp 10 + 1 < Real.exp 10 * (1 + 1 / 20589) := by
      nlinarith
    have h2 : Real.log (Real.exp 10 + 1) < 10 + 1 / 20589 := by
      have hlt := Real.log_lt_log (by positivity) hexp_mul
      rw [Real.log_mul (Real.exp_ne_zero _) (by norm_num), Real.log_exp] at hlt
      have hlog1 : Real.log (1 + 1 / 20589) ≤ 1 / 20589 := by
        have := Real.log_le_sub_one_of_pos (show (0 : ℝ) < 1 + 1 / 20589 by norm_num)
        linarith
      linarith
    nlinarith
  have havg : (AMM.calculateBuyCost ⟨1000, 0⟩ .yes 1 100).avgPrice =
      round6 ((AMM.rawBuyCost ⟨1000, 0⟩ .yes 1 100 +
        AMM.rawBuyCost ⟨1000, 0⟩ .yes 1 100 * AMM.feeRate) / 1) := rfl
  rw [havg, feeRate_eq]
  have hgt := round6_gt ((AMM.rawBuyCost ⟨1000, 0⟩ .yes 1 100 +
    AMM.rawBuyCost ⟨1000, 0⟩ .yes 1 100 * (2 / 100)) / 1)
  nlinarith

/-- **C8, amended.**  Engine-produced buy average prices lie in
[0, 1.02] (1.02 = 1 + fee rate, not 1 as originally claimed: the fee is
folded into the average); and the position upsert, fed any nonnegative
share delta (positive on first creation, as the executor enforces) and
any price in [0, 1.02], keeps both share counts nonnegative, keeps each
average price in [0, 1.02] (0 whenever its side is empty, so it is reset
on full sale), and leaves the opposite side untouched. -/
theorem position_upsert_amended :
    (∀ (s : AMM.AMMState) (side : Side) (shares b : ℝ), 0 < b → 0 < shares →
      0 ≤ (AMM.calculateBuyCost s side shares b).avgPrice ∧
      (AMM.calculateBuyCost s side shares b).avgPrice ≤ 51 / 50) ∧
    (∀ (pos : Option Positions.Position) (side : Side)
      (sharesDelta avgPrice : ℝ) (isBuy : Bool),
      0 ≤ sharesDelta → 0 ≤ avgPrice → avgPrice ≤ 51 / 50 →
      (pos = none → 0 < sharesDelta) →
      (∀ p, pos = some p → Positions.PosInvariant p) →
      Positions.PosInvariant
        (Positions.createOrUpdate pos side sharesDelta avgPrice isBuy) ∧
      Positions.oppositeUntouched pos side
        (Positions.createOrUpdate pos side sharesDelta avgPrice isBuy)) := by
  constructor
  · intro s side shares b hb hs
    exact calculateBuyCost_avgPrice_bounds s side shares b hb hs
  · intro pos side d p isBuy hd hp0 hpM hcreate hinv
    cases pos with
    | none =>
        have hdpos := hcreate rfl
        cases side with
        | yes =>
            have hres : Positions.createOrUpdate none .yes d p isBuy =
                { yesShares := d, noShares := 0,
                  avgYesPrice := p, avgNoPrice := 0 } := by
              simp [Positions.createOrUpdate]
            rw [hres]
            exact ⟨⟨hd, le_refl 0, ⟨hp0, hpM⟩, ⟨le_refl 0, by norm_num⟩,
              fun h => absurd h (ne_of_gt hdpos), fun _ => rfl⟩, rfl, rfl⟩
        | no =>
            have hres : Positions.createOrUpdate none .no d p isBuy =
                { yesShares := 0, noShares := d,
                  avgYesPrice := 0, avgNoPrice := p } := by
              simp [Positions.createOrUpdate]
            rw [hres]
            exact ⟨⟨le_refl 0, hd, ⟨le_refl 0, by norm_num⟩, ⟨hp0, hpM⟩,
              fun _ => rfl, fun h => absurd h (ne_of_gt hdpos)⟩, rfl, rfl⟩
    | some q =>
        obtain ⟨h1, h2, ⟨h3, h4⟩, ⟨h5, h6⟩, h7, h8⟩ := hinv q rfl
        cases side with
        | yes =>
            cases isBuy with
            | true =>
                have hres : Positions.createOrUpdate (some q) .yes d p true =
                    { yesShares := max 0 (q.yesShares + d)
                      noShares := q.noShares
                      avgYesPrice := (if 0 < q.yesShares + d then
                        (q.yesShares * q.avgYesPrice + d * p) / (q.yesShares + d)
                        else 0)
                      avgNoPrice := q.avgNoPrice } := by
                  simp [Positions.createOrUpdate]
                rw [hres]
                by_cases hpos2 : 0 < q.yesShares + d
                · rw [if_pos hpos2]
                  refine ⟨⟨le_max_left 0 _, h2, ⟨?_, ?_⟩, ⟨h5, h6⟩, ?_, h8⟩, rfl, rfl⟩
                  · exact div_nonneg (by nlinarith) (le_of_lt hpos2)
                  · rw [div_le_iff₀ hpos2]
                    nlinarith [mul_le_mul_of_nonneg_left h4 h1,
                      mul_le_mul_of_nonneg_left hpM hd]
                  · intro hzero
                    have hz : q.yesShares + d = 0 := by
                      rwa [max_eq_right (le_of_lt hpos2)] at hzero
                    linarith
                · rw [if_neg hpos2, max_eq_left (not_lt.mp hpos2)]
                  exact ⟨⟨le_refl 0, h2, ⟨le_refl 0, by norm_num⟩, ⟨h5, h6⟩,
                    fun _ => rfl, h8⟩, rfl, rfl⟩
            | false =>
                have hres : Positions.createOrUpdate (some q) .yes d p false =
                    { yesShares := max 0 (q.yesShares - d)
                      noShares := q.noShares
                      avgYesPrice := (if 0 < q.yesShares - d then q.avgYesPrice
                        else 0)
                      avgNoPrice := q.avgNoPrice } := by
                  simp [Positions.createOrUpdate]
                rw [hres]
                by_cases hpos2 : 0 < q.yesShares - d
                · rw [if_pos hpos2]
                  refine ⟨⟨le_max_left 0 _, h2, ⟨h3, h4⟩, ⟨h5, h6⟩, ?_, h8⟩, rfl, rfl⟩
                  intro hzero
                  have hz : q.yesShares - d = 0 := by
                    rwa [max_eq_right (le_of_lt hpos2)] at hzero
                  linarith
                · rw [if_neg hpos2, max_eq_left (not_lt.mp hpos2)]
                  exact ⟨⟨le_refl 0, h2, ⟨le_refl 0, by norm_num⟩, ⟨h5, h6⟩,
                    fun _ => rfl, h8⟩, rfl, rfl⟩
        | no =>
            cases isBuy with
            | true =>
                have hres : Positions.createOrUpdate (some q) .no d p true =
                    { yesShares := q.yesShares
                      noShares := max 0 (q.noShares + d)
                      avgYesPrice := q.avgYesPrice
                      avgNoPrice := (if 0 < q.noShares + d then
                        (q.noShares * q.avgNoPrice + d * p) / (q.noShares + d)
                        else 0) } := by
                  simp [Positions.createOrUpdate]
                rw [hres]
                by_cases hpos2 : 0 < q.noShares + d
                · rw [if_pos hpos2]
                  refine ⟨⟨h1, le_max_left 0 _, ⟨h3, h4⟩, ⟨?_, ?_⟩, h7, ?_⟩, rfl, rfl⟩
                  · exact div_nonneg (by nlinarith) (le_of_lt hpos2)
                  · rw [div_le_iff₀ hpos2]
                    nlinarith [mul_le_mul_of_nonneg_left h6 h2,
                      mul_le_mul_of_nonneg_left hpM hd]
                  · intro hzero
                    have hz : q.noShares + d = 0 := by
                      rwa [max_eq_right (le_of_lt hpos2)] at hzero
                    linarith
                · rw [if_neg hpos2, max_eq_left (not_lt.mp hpos2)]
                  exact ⟨⟨h1, le_refl 0, ⟨h3, h4⟩, ⟨le_refl 0, by norm_num⟩,
                    h7, fun _ => rfl⟩, rfl, rfl⟩
            | false =>
                have hres : Positions.createOrUpdate (some q) .no d p false =
                    { yesShares := q.yesShares
                      noShares := max 0 (q.noShares - d)
                      avgYesPrice := q.avgYesPrice
                      avgNoPrice := (if 0 < q.noShares - d then q.avgNoPrice
                        else 0) } := by
                  simp [Positions.createOrUpdate]
                rw [hres]
                by_cases hpos2 : 0 < q.noShares - d
                · rw [if_pos hpos2]
                  refine ⟨⟨h1, le_max_left 0 _, ⟨h3, h4⟩, ⟨h5, h6⟩, h7, ?_⟩, rfl, rfl⟩
                  intro hzero
                  have hz : q.noShares - d = 0 := by
                    rwa [max_eq_right (le_of_lt hpos2)] at hzero
                  linarith
                · rw [if_neg hpos2, max_eq_left (not_lt.mp hpos2)]
                  exact ⟨⟨h1, le_refl 0, ⟨h3, h4⟩, ⟨le_refl 0, by norm_num⟩,
                    h7, fun _ => rfl⟩, rfl, rfl⟩

/-- Witness for C8 (amended): concrete instantiation of both halves. -/
theorem position_upsert_amended_witness :
    (0 ≤ (AMM.calculateBuyCost ⟨0, 0⟩ .yes 1 100).avgPrice ∧
      (AMM.calculateBuyCost ⟨0, 0⟩ .yes 1 100).avgPrice ≤ 51 / 50) ∧
    (Positions.PosInvariant (Positions.createOrUpdate none .yes 2 (1 / 2) true) ∧
      Positions.oppositeUntouched none .yes
        (Positions.createOrUpdate none .yes 2 (1 / 2) true)) :=
  ⟨position_upsert_amended.1 ⟨0, 0⟩ .yes 1 100 (by norm_num) (by norm_num),
    position_upsert_amended.2 none .yes 2 (1 / 2) true (by norm_num) (by norm_num)
      (by norm_num) (fun _ => by norm_num)
      (fun p h => Option.noConfusion h)⟩

end SpeculateHub

namespace SpeculateHub

namespace AMM

/-! ### Sell quote (`AMMService.calculateSellReturn`) -/

/-- The result record of `calculateSellReturn`. -/
structure SellResult where
  amountReceived : ℝ
  avgPrice : ℝ
  newYesShares : ℝ
  newNoShares : ℝ
  priceImpact : ℝ

/-- New yes-quantity after a sale, before the negative clamp. -/
noncomputable def sellNewQYesRaw (s : AMMState) (side : Side) (shares : ℝ) : ℝ :=
  if side = .yes then s.yesShares - shares else s.yesShares

/-- New no-quantity after a sale, before the negative clamp. -/
noncomputable def sellNewQNoRaw (s : AMMState) (side : Side) (shares : ℝ) : ℝ :=
  if side = .yes then s.noShares else s.noShares - shares

/-- The clamp `if (newQYes.lt(0)) newQYes = new Decimal(0)`. -/
noncomputable def sellNewQYes (s : AMMState) (side : Side) (shares : ℝ) : ℝ :=
  if sellNewQYesRaw s side shares < 0 then 0 else sellNewQYesRaw s side shares

/-- The clamp `if (newQNo.lt(0)) newQNo = new Decimal(0)`. -/
noncomputable def sellNewQNo (s : AMMState) (side : Side) (shares : ℝ) : ℝ :=
  if sellNewQNoRaw s side shares < 0 then 0 else sellNewQNoRaw s side shares

/-- The raw (fee-free) LMSR sale proceeds `C(current) - C(new)`,
computed on the clamped new state as in the source. -/
noncomputable def rawSellReturn (s : AMMState) (side : Side) (shares b : ℝ) : ℝ :=
  cost s.yesShares s.noShares b -
    cost (sellNewQYes s side shares) (sellNewQNo s side shares) b

/-- `AMMService.calculateSellReturn`: rejects a sale of more shares than
the AMM holds on that side and a non-positive raw return; otherwise
takes the 2% fee out of the raw return. -/
noncomputable def calculateSellReturn (s : AMMState) (side : Side)
    (shares b : ℝ) : Except Err SellResult :=
  if side = .yes ∧ s.yesShares < shares then .error .invalidTrade
  else if side = .no ∧ s.noShares < shares then .error .invalidTrade
  else if rawSellReturn s side shares b ≤ 0 then .error .invalidTrade
  else
    let rawReturn := rawSellReturn s side shares b
    let fee := rawReturn * feeRate
    let amountReceived := rawReturn - fee
    let avgPrice := amountReceived / shares
    let oldPrices := getCurrentPrices s b
    let newPrices :=
      getCurrentPrices ⟨sellNewQYes s side shares, sellNewQNo s side shares⟩ b
    let priceImpact :=
      if side = .yes then
        (oldPrices.yesPrice - newPrices.yesPrice) / oldPrices.yesPrice
      else
        (oldPrices.noPrice - newPrices.noPrice) / oldPrices.noPrice
    .ok { amountReceived := round6 amountReceived
          avgPrice := round6 avgPrice
          newYesShares := sellNewQYes s side shares
          newNoShares := sellNewQNo s side shares
          priceImpact := |priceImpact| }

/-- Successful-run equation for `calculateSellReturn`. -/
theorem calculateSellReturn_ok (s : AMMState) (side : Side) (shares b : ℝ)
    (h1 : ¬(side = .yes ∧ s.yesShares < shares))
    (h2 : ¬(side = .no ∧ s.noShares < shares))
    (h3 : ¬(rawSellReturn s side shares b ≤ 0)) :
    calculateSellReturn s side shares b = .ok
      { amountReceived := round6 (rawSellReturn s side shares b -
          rawSellReturn s side shares b * feeRate)
        avgPrice := round6 ((rawSellReturn s side shares b -
          rawSellReturn s side shares b * feeRate) / shares)
        newYesShares := sellNewQYes s side shares
        newNoShares := sellNewQNo s side shares
        priceImpact := |if side = .yes then
          ((getCurrentPrices s b).yesPrice -
            (getCurrentPrices ⟨sellNewQYes s side shares, sellNewQNo s side shares⟩ b).yesPrice) /
            (getCurrentPrices s b).yesPrice
        else
          ((getCurrentPrices s b).noPrice -
            (getCurrentPrices ⟨sellNewQYes s side shares, sellNewQNo s side shares⟩ b).noPrice) /
            (getCurrentPrices s b).noPrice| } := by
  unfold calculateSellReturn
  rw [if_neg h1, if_neg h2, if_neg h3]

end AMM

theorem sellNewQYesRaw_yes (s : AMM.AMMState) (sh : ℝ) :
    AMM.sellNewQYesRaw s .yes sh = s.yesShares - sh := by
  unfold AMM.sellNewQYesRaw
  simp

theorem sellNewQYesRaw_no (s : AMM.AMMState) (sh : ℝ) :
    AMM.sellNewQYesRaw s .no sh = s.yesShares := by
  unfold AMM.sellNewQYesRaw
  simp

theorem sellNewQNoRaw_yes (s : AMM.AMMState) (sh : ℝ) :
    AMM.sellNewQNoRaw s .yes sh = s.noShares := by
  unfold AMM.sellNewQNoRaw
  simp

theorem sellNewQNoRaw_no (s : AMM.AMMState) (sh : ℝ) :
    AMM.sellNewQNoRaw s .no sh = s.noShares - sh := by
  unfold AMM.sellNewQNoRaw
  simp

theorem clamp_of_nonneg {x : ℝ} (hx : 0 ≤ x) : (if x < 0 then (0:ℝ) else x) = x :=
  if_neg (not_lt.mpr hx)

theorem clamp_nonneg (x : ℝ) : 0 ≤ (if x < 0 then (0:ℝ) else x) := by
  split
  · exact le_refl 0
  · exact le_of_not_lt (by assumption)

theorem sellNewQYes_nonneg (s : AMM.AMMState) (side : Side) (sh : ℝ) :
    0 ≤ AMM.sellNewQYes s side sh := by
  unfold AMM.sellNewQYes
  exact clamp_nonneg _

theorem sellNewQNo_nonneg (s : AMM.AMMState) (side : Side) (sh : ℝ) :
    0 ≤ AMM.sellNewQNo s side sh := by
  unfold AMM.sellNewQNo
  exact clamp_nonneg _

/-- Counterexample to C10 as stated.  With the share state
`q_yes = -1, q_no = 5` the no-side sale of 3 shares passes the
function's own share check (3 ≤ 5), yet the clamp on `newQYes` fires:
the untouched yes side is negative, the pre-clamp value is -1 and the
function returns 0 in its place, so the clamp branches are not
unreachable under the share checks alone. -/
theorem calculateSellReturn_clamp_cex :
    ¬ ((⟨-1, 5⟩ : AMM.AMMState).noShares < 3) ∧
    AMM.sellNewQYesRaw ⟨-1, 5⟩ .no 3 = -1 ∧
    AMM.sellNewQYes ⟨-1, 5⟩ .no 3 = 0 ∧
    (∃ r, AMM.calculateSellReturn ⟨-1, 5⟩ .no 3 1 = .ok r ∧
      r.newYesShares = 0 ∧ r.newYesShares ≠ AMM.sellNewQYesRaw ⟨-1, 5⟩ .no 3) := by
  have hqyesraw : AMM.sellNewQYesRaw ⟨-1, 5⟩ .no 3 = -1 := by
    rw [sellNewQYesRaw_no]
  have hqyes : AMM.sellNewQYes ⟨-1, 5⟩ .no 3 = 0 := by
    unfold AMM.sellNewQYes
    rw [hqyesraw]
    norm_num
  have hqno : AMM.sellNewQNo ⟨-1, 5⟩ .no 3 = 2 := by
    have hraw2 : AMM.sellNewQNoRaw ⟨-1, 5⟩ .no 3 = 2 := by
      rw [sellNewQNoRaw_no]
      norm_num
    unfold AMM.sellNewQNo
    rw [hraw2]
    norm_num
  have he1g : (2.7 : ℝ) < Real.exp 1 := by
    have := Real.exp_one_gt_d9
    linarith
  have he1l : Real.exp 1 < 2.719 := by
    have := Real.exp_one_lt_d9
    linarith
  have h5 : (143 : ℝ) < Real.exp 5 := by
    have hp : (2.7 : ℝ) ^ (5 : ℕ) < Real.exp 1 ^ (5 : ℕ) :=
      pow_lt_pow_left₀ he1g (by norm_num) (by norm_num)
    have he : Real.exp 1 ^ (5 : ℕ) = Real.exp 5 := by
      rw [← Real.exp_nat_mul]; norm_num
    nlinarith
  have h2 : Real.exp 2 < (7.4 : ℝ) := by
    have hp : Real.exp 1 ^ (2 : ℕ) < (2.719 : ℝ) ^ (2 : ℕ) :=
      pow_lt_pow_left₀ he1l (le_of_lt (Real.exp_pos 1)) (by norm_num)
    have he : Real.exp 1 ^ (2 : ℕ) = Real.exp 2 := by
      rw [← Real.exp_nat_mul]; norm_num
    nlinarith
  have hraw : ¬ (AMM.rawSellReturn ⟨-1, 5⟩ .no 3 1 ≤ 0) := by
    rw [AMM.rawSellReturn, hqyes, hqno]
    unfold AMM.cost
    push_neg
    have hlt : Real.log (Real.exp ((0:ℝ) / 1) + Real.exp ((2:ℝ) / 1)) <
        Real.log (Real.exp ((-1:ℝ) / 1) + Real.exp ((5:ℝ) / 1)) := by
      apply Real.log_lt_log (by positivity)
      have hm1 : (0:ℝ) < Real.exp ((-1:ℝ) / 1) := Real.exp_pos _
      have e0 : Real.exp ((0:ℝ) / 1) = 1 := by norm_num
      have e2 : Real.exp ((2:ℝ) / 1) = Real.exp 2 := by norm_num
      have e5 : Real.exp ((5:ℝ) / 1) = Real.exp 5 := by norm_num
      rw [e0, e2, e5]
      nlinarith
    nlinarith
  refine ⟨by norm_num, hqyesraw, hqyes, ?_⟩
  refine ⟨_, AMM.calculateSellReturn_ok ⟨-1, 5⟩ .no 3 1
    (by rintro ⟨h, -⟩; exact Outcome.noConfusion h) (by norm_num) hraw, ?_, ?_⟩
  · exact hqyes
  · rw [hqyes, hqyesraw]
    norm_num

/-- **C10, amended.**  Under the share checks of `calculateSellReturn`
the traded side never goes negative, so its clamp branch does not alter
the value; the clamp on the opposite side is likewise inert whenever the
input state is nonnegative (the system invariant), though it can fire
for a negative input state; and in every successful run the returned new
share quantities are nonnegative, the clamps enforcing this
unconditionally. -/
theorem calculateSellReturn_amended (s : AMM.AMMState) (side : Side)
    (shares b : ℝ) :
    (side = .yes → shares ≤ s.yesShares →
      AMM.sellNewQYes s side shares = AMM.sellNewQYesRaw s side shares) ∧
    (side = .no → shares ≤ s.noShares →
      AMM.sellNewQNo s side shares = AMM.sellNewQNoRaw s side shares) ∧
    (0 ≤ s.yesShares → 0 ≤ s.noShares →
      ¬(side = .yes ∧ s.yesShares < shares) →
      ¬(side = .no ∧ s.noShares < shares) →
      AMM.sellNewQYes s side shares = AMM.sellNewQYesRaw s side shares ∧
      AMM.sellNewQNo s side shares = AMM.sellNewQNoRaw s side shares) ∧
    (∀ r, AMM.calculateSellReturn s side shares b = .ok r →
      0 ≤ r.newYesShares ∧ 0 ≤ r.newNoShares) := by
  refine ⟨?_, ?_, ?_, ?_⟩
  · intro hside hle
    subst hside
    unfold AMM.sellNewQYes
    rw [sellNewQYesRaw_yes]
    exact clamp_of_nonneg (by linarith)
  · intro hside hle
    subst hside
    unfold AMM.sellNewQNo
    rw [sellNewQNoRaw_no]
    exact clamp_of_nonneg (by linarith)
  · intro hy hn hg1 hg2
    cases side with
    | yes =>
        have hle : shares ≤ s.yesShares :=
          le_of_not_lt (fun hlt => hg1 ⟨rfl, hlt⟩)
        constructor
        · unfold AMM.sellNewQYes
          rw [sellNewQYesRaw_yes]
          exact clamp_of_nonneg (by linarith)
        · unfold AMM.sellNewQNo
          rw [sellNewQNoRaw_yes]
          exact clamp_of_nonneg hn
    | no =>
        have hle : shares ≤ s.noShares :=
          le_of_not_lt (fun hlt => hg2 ⟨rfl, hlt⟩)
        constructor
        · unfold AMM.sellNewQYes
          rw [sellNewQYesRaw_no]
          exact clamp_of_nonneg hy
        · unfold AMM.sellNewQNo
          rw [sellNewQNoRaw_no]
          exact clamp_of_nonneg (by linarith)
  · intro r hr
    unfold AMM.calculateSellReturn at hr
    split_ifs at hr <;>
      first
        | exact Except.noConfusion hr
        | (injection hr with h; subst h;
           exact ⟨sellNewQYes_nonneg s side shares, sellNewQNo_nonneg s side shares⟩)

/-- Witness for C10 (amended) at the concrete state `q_yes = q_no = 5`:
all hypotheses discharged for a 3-share yes sale, including a successful
run whose returned quantities are nonnegative. -/
theorem calculateSellReturn_amended_witness :
    ((3:ℝ) ≤ (AMM.AMMState.mk 5 5).yesShares ∧
      AMM.sellNewQYes ⟨5, 5⟩ .yes 3 = AMM.sellNewQYesRaw ⟨5, 5⟩ .yes 3) ∧
    ((3:ℝ) ≤ (AMM.AMMState.mk 5 5).noShares ∧
      AMM.sellNewQNo ⟨5, 5⟩ .no 3 = AMM.sellNewQNoRaw ⟨5, 5⟩ .no 3) ∧
    (0 ≤ (AMM.AMMState.mk 5 5).yesShares ∧ 0 ≤ (AMM.AMMState.mk 5 5).noShares ∧
      AMM.sellNewQYes ⟨5, 5⟩ .yes 3 = AMM.sellNewQYesRaw ⟨5, 5⟩ .yes 3 ∧
      AMM.sellNewQNo ⟨5, 5⟩ .yes 3 = AMM.sellNewQNoRaw ⟨5, 5⟩ .yes 3) ∧
    (∃ r, AMM.calculateSellReturn ⟨5, 5⟩ .yes 3 1 = .ok r ∧
      0 ≤ r.newYesShares ∧ 0 ≤ r.newNoShares) := by
  have hg1 : ¬ (Outcome.yes = Outcome.yes ∧ (AMM.AMMState.mk 5 5).yesShares < 3) := by
    rintro ⟨-, h⟩
    norm_num at h
  have hg2 : ¬ (Outcome.yes = Outcome.no ∧ (AMM.AMMState.mk 5 5).noShares < 3) := by
    rintro ⟨h, -⟩
    exact Outcome.noConfusion h
  have hq1 : AMM.sellNewQYes ⟨5, 5⟩ .yes 3 = 2 := by
    unfold AMM.sellNewQYes
    rw [sellNewQYesRaw_yes]
    norm_num
  have hq2 : AMM.sellNewQNo ⟨5, 5⟩ .yes 3 = 5 := by
    unfold AMM.sellNewQNo
    rw [sellNewQNoRaw_yes]
    norm_num
  have hraw : ¬ (AMM.rawSellReturn ⟨5, 5⟩ .yes 3 1 ≤ 0) := by
    unfold AMM.rawSellReturn
    rw [hq1, hq2]
    unfold AMM.cost
    push_neg
    have hlt : Real.log (Real.exp ((2:ℝ) / 1) + Real.exp ((5:ℝ) / 1)) <
        Real.log (Real.exp ((5:ℝ) / 1) + Real.exp ((5:ℝ) / 1)) := by
      apply Real.log_lt_log (by positivity)
      have := Real.exp_lt_exp.mpr (show (2:ℝ) / 1 < 5 / 1 by norm_num)
      linarith
    nlinarith
  have hok := AMM.calculateSellReturn_ok ⟨5, 5⟩ .yes 3 1 hg1 hg2 hraw
  exact ⟨⟨by norm_num,
      (calculateSellReturn_amended ⟨5, 5⟩ .yes 3 1).1 rfl (by norm_num)⟩,
    ⟨by norm_num,
      (calculateSellReturn_amended ⟨5, 5⟩ .no 3 1).2.1 rfl (by norm_num)⟩,
    ⟨by norm_num, by norm_num,
      (calculateSellReturn_amended ⟨5, 5⟩ .yes 3 1).2.2.1 (by norm_num)
        (by norm_num) hg1 hg2⟩,
    ⟨_, hok, (calculateSellReturn_amended ⟨5, 5⟩ .yes 3 1).2.2.2 _ hok⟩⟩

end SpeculateHub

namespace SpeculateHub

namespace AMM

/-! ### Amount-to-shares inversion (`AMMService.calculateSharesForAmount`) -/

/-- The bisection tolerance of the source (`0.0001`). -/
noncomputable def bisectTol : ℝ := 1 / 10000

/-- `result.cost / (1 + FEE_RATE)` for a candidate share count, as the
source loop computes it. -/
noncomputable def costWithoutFee (s : AMMState) (side : Side) (b mid : ℝ) : ℝ :=
  (calculateBuyCost s side mid b).cost / (1 + feeRate)

/-- The bisection loop of `calculateSharesForAmount`, with the iteration
count as fuel (the source runs `for i in 0..99`); returns the midpoint
of the bracket at exit. -/
noncomputable def bisectGo (s : AMMState) (side : Side) (amount b : ℝ) :
    ℕ → ℝ → ℝ → ℝ
  | 0, low, high => (low + high) / 2
  | n + 1, low, high =>
      let mid := (low + high) / 2
      if |costWithoutFee s side b mid - amount / (1 + feeRate)| < bisectTol then
        mid
      else if costWithoutFee s side b mid < amount / (1 + feeRate) then
        bisectGo s side amount b n mid high
      else
        bisectGo s side amount b n low mid

/-- `AMMService.calculateSharesForAmount`: bisection over
`[0, amount * 10]` for at most 100 iterations; the share count and the
average price `amount / shares` are rounded to 6 digits on output. -/
noncomputable def calculateSharesForAmount (s : AMMState) (side : Side)
    (amount b : ℝ) : ℝ × ℝ :=
  let m := bisectGo s side amount b 100 0 (amount * 10)
  (round6 m, round6 (amount / m))

/-- Modelled from the claim: one bisection step on a bracket.  The step
tests the bracket midpoint; when the fee-free cost of the midpoint is
within `1e-4` of `amount / (1 + fee_rate)` the bisection has terminated
and the bracket freezes, otherwise the half of the bracket containing
the target is kept. -/
noncomputable def specBisectStep (s : AMMState) (side : Side) (amount b : ℝ)
    (br : ℝ × ℝ) : ℝ × ℝ :=
  let mid := (br.1 + br.2) / 2
  if |costWithoutFee s side b mid - amount / (1 + feeRate)| < bisectTol then br
  else if costWithoutFee s side b mid < amount / (1 + feeRate) then (mid, br.2)
  else (br.1, mid)

/-- Modelled from the claim: the bracket after `n` bisection steps. -/
noncomputable def specBisectIter (s : AMMState) (side : Side) (amount b : ℝ) :
    ℕ → ℝ × ℝ → ℝ × ℝ
  | 0, br => br
  | n + 1, br => specBisectIter s side amount b n (specBisectStep s side amount b br)

/-- Once the tolerance is met at a bracket midpoint, further spec steps
leave the bracket unchanged. -/
theorem specBisectIter_frozen (s : AMMState) (side : Side) (amount b : ℝ)
    (n : ℕ) (br : ℝ × ℝ)
    (h : |costWithoutFee s side b ((br.1 + br.2) / 2) - amount / (1 + feeRate)| <
      bisectTol) :
    specBisectIter s side amount b n br = br := by
  induction n with
  | zero => rfl
  | succ k ih =>
      show specBisectIter s side amount b k (specBisectStep s side amount b br) = br
      rw [show specBisectStep s side amount b br = br from if_pos h]
      exact ih

/-- The source loop agrees step for step with the claim-side bracket
iteration. -/
theorem bisectGo_eq_specIter (s : AMMState) (side : Side) (amount b : ℝ)
    (n : ℕ) (low high : ℝ) :
    bisectGo s side amount b n low high =
      ((specBisectIter s side amount b n (low, high)).1 +
        (specBisectIter s side amount b n (low, high)).2) / 2 := by
  induction n generalizing low high with
  | zero => rfl
  | succ k ih =>
      show (if |costWithoutFee s side b ((low + high) / 2) - amount / (1 + feeRate)| <
          bisectTol then (low + high) / 2
        else if costWithoutFee s side b ((low + high) / 2) < amount / (1 + feeRate) then
          bisectGo s side amount b k ((low + high) / 2) high
        else bisectGo s side amount b k low ((low + high) / 2)) =
        ((specBisectIter s side amount b k (specBisectStep s side amount b (low, high))).1 +
          (specBisectIter s side amount b k (specBisectStep s side amount b (low, high))).2) / 2
      by_cases htol : |costWithoutFee s side b ((low + high) / 2) -
          amount / (1 + feeRate)| < bisectTol
      · rw [if_pos htol,
          show specBisectStep s side amount b (low, high) = (low, high) from if_pos htol,
          specBisectIter_frozen s side amount b k (low, high) htol]
      · rw [if_neg htol]
        by_cases hlt : costWithoutFee s side b ((low + high) / 2) < amount / (1 + feeRate)
        · rw [if_pos hlt,
            show specBisectStep s side amount b (low, high) = ((low + high) / 2, high) from by
              unfold specBisectStep
              rw [if_neg htol, if_pos hlt]]
          exact ih ((low + high) / 2) high
        · rw [if_neg hlt,
            show specBisectStep s side amount b (low, high) = (low, (low + high) / 2) from by
              unfold specBisectStep
              rw [if_neg htol, if_neg hlt]]
          exact ih low ((low + high) / 2)

end AMM

/-- **C9.** `calculateSharesForAmount` is the claimed bisection: starting
from the bracket `[0, amount·10]`, it runs the claim-side bisection
step — which terminates (freezes) as soon as the fee-free cost of the
midpoint is within `1e-4` of `amount/(1+fee_rate)` — for at most 100
iterations, and returns the midpoint of the bracket at termination
rounded to 6 fractional digits, with average price `amount / Δ` for that
midpoint Δ, also rounded. -/
theorem calculateSharesForAmount_spec (s : AMM.AMMState) (side : Side)
    (amount b : ℝ) :
    AMM.calculateSharesForAmount s side amount b =
      (round6 (((AMM.specBisectIter s side amount b 100 (0, amount * 10)).1 +
          (AMM.specBisectIter s side amount b 100 (0, amount * 10)).2) / 2),
        round6 (amount /
          (((AMM.specBisectIter s side amount b 100 (0, amount * 10)).1 +
            (AMM.specBisectIter s side amount b 100 (0, amount * 10)).2) / 2))) := by
  unfold AMM.calculateSharesForAmount
  rw [AMM.bisectGo_eq_specIter s side amount b 100 0 (amount * 10)]

end SpeculateHub

namespace SpeculateHub

/-! ## The persisted world, trade executor and settlement
(`trades.service.ts`, world-level operations of `wallets.service.ts`,
`markets.service.ts`, `positions.service.ts`) -/

/-- Trade type. -/
inductive TradeType where
  | buy | sell
deriving DecidableEq, Repr

/-- A `trades` table row as written by `recordTrade`. -/
structure TradeRow where
  userId : ℕ
  type : TradeType
  side : Side
  shares : ℝ
  price : ℝ
  cost : ℝ
  fee : ℝ
  yesSharesBefore : ℝ
  noSharesBefore : ℝ
  yesSharesAfter : ℝ
  noSharesAfter : ℝ

/-- A `positions` row with its owning user (the market is implicit: the
world tracks a single market). -/
structure PositionRow where
  userId : ℕ
  pos : Positions.Position

/-- The persisted state the executor and settlement touch around one
market: per-user wallet balances, the wallet-transaction log, the market
row, its position rows and its trade log. -/
structure World where
  balances : ℕ → ℝ
  txs : List (ℕ × WalletTx)
  market : Market
  positions : List PositionRow
  trades : List TradeRow

/-- The categories of database writes the executor performs.  The
backend wraps no transaction around them, so each `supabase` call can
fail independently; an oracle records which succeed. -/
inductive DbWrite where
  | walletUpdate | walletTxInsert | marketUpdate | positionWrite | tradeInsert
deriving DecidableEq, Repr

/-- Failure oracle for database writes. -/
def DbOracle := DbWrite → Bool

/-- The all-writes-succeed oracle. -/
def dbOk : DbOracle := fun _ => true

/-- The oracle under which only the `trades` insert fails. -/
def dbNoTradeInsert : DbOracle := fun st =>
  match st with
  | .tradeInsert => false
  | _ => true

namespace Exec

/-- `WalletsService.deductForTrade` against the world: balance check,
balance write, then the transaction append, whose failure the service
swallows (`recordTransaction` only logs the error). -/
noncomputable def deductForTrade (o : DbOracle) (w : World) (u : ℕ)
    (amount : ℝ) : Except (Err × World) World :=
  if w.balances u < amount then .error (.insufficientFunds, w)
  else if o .walletUpdate = false then .error (.internal, w)
  else
    let w2 : World := { w with
      balances := fun v => if v = u then w.balances u - amount else w.balances v }
    if o .walletTxInsert then
      .ok { w2 with
        txs := w2.txs ++ [(u, ⟨.trade, -amount, w.balances u, w.balances u - amount⟩)] }
    else .ok w2

/-- `WalletsService.addFromTrade` against the world: unconditional
credit plus transaction append (failure of the latter swallowed). -/
noncomputable def addFromTrade (o : DbOracle) (w : World) (u : ℕ)
    (amount : ℝ) : Except (Err × World) World :=
  if o .walletUpdate = false then .error (.internal, w)
  else
    let w2 : World := { w with
      balances := fun v => if v = u then w.balances u + amount else w.balances v }
    if o .walletTxInsert then
      .ok { w2 with
        txs := w2.txs ++ [(u, ⟨.trade, amount, w.balances u, w.balances u + amount⟩)] }
    else .ok w2

/-- `MarketsService.updateShares` against the world: writes the new
share quantities and adds the traded amount to the cumulative volume. -/
noncomputable def updateShares (o : DbOracle) (w : World)
    (yes no volInc : ℝ) : Except (Err × World) World :=
  if o .marketUpdate = false then .error (.internal, w)
  else .ok { w with market := { w.market with
    yesShares := yes, noShares := no, volume := w.market.volume + volInc } }

/-- `PositionsService.findByUserAndMarket`. -/
def findPosition (w : World) (u : ℕ) : Option Positions.Position :=
  match w.positions.find? (fun r => r.userId = u) with
  | some r => some r.pos
  | none => none

/-- `PositionsService.createOrUpdate` against the world: insert the row
on first trade, otherwise replace it. -/
noncomputable def upsertPosition (o : DbOracle) (w : World) (u : ℕ)
    (side : Side) (d p : ℝ) (isBuy : Bool) : Except (Err × World) World :=
  if o .positionWrite = false then .error (.internal, w)
  else
    let newPos := Positions.createOrUpdate (findPosition w u) side d p isBuy
    match w.positions.find? (fun r => r.userId = u) with
    | some _ =>
        .ok { w with positions := (w.positions.map
          (fun r => if r.userId = u then ⟨u, newPos⟩ else r)) }
    | none => .ok { w with positions := w.positions ++ [⟨u, newPos⟩] }

/-- `TradesService.recordTrade`: the insert into `trades`; throws on
failure. -/
noncomputable def recordTrade (o : DbOracle) (w : World) (t : TradeRow) :
    Except (Err × World) World :=
  if o .tradeInsert = false then .error (.internal, w)
  else .ok { w with trades := w.trades ++ [t] }

end Exec

/-- The trade request body (`ExecuteTradeDto`).  `amount` and `shares`
are optional; the executor tests them by JavaScript truthiness, so a
present 0 behaves like an absent field (the DTO validation forbids 0
anyway). -/
structure ExecuteTradeDto where
  type : TradeType
  side : Side
  amount : Option ℝ
  shares : Option ℝ

namespace Exec

/-- The tail of `TradesService.executeBuy` shared by the by-amount and
by-shares branches: guard, wallet debit, AMM recomputation, market
write, position upsert, trade insert. -/
noncomputable def executeBuyCore (o : DbOracle) (w : World) (userId : ℕ)
    (side : Side) (state : AMM.AMMState) (b shares cost avgPrice : ℝ) :
    Except (Err × World) (World × TradeRow) :=
  if shares ≤ 0 then .error (.invalidTrade, w)
  else
    match deductForTrade o w userId cost with
    | .error e => .error e
    | .ok w1 =>
        let buyResult := AMM.calculateBuyCost state side shares b
        match updateShares o w1 buyResult.newYesShares buyResult.newNoShares cost with
        | .error e => .error e
        | .ok w2 =>
            match upsertPosition o w2 userId side shares avgPrice true with
            | .error e => .error e
            | .ok w3 =>
                let fee := cost * AMM.feeRate / (1 + AMM.feeRate)
                let t : TradeRow := ⟨userId, .buy, side, shares, avgPrice, cost, fee,
                  state.yesShares, state.noShares,
                  buyResult.newYesShares, buyResult.newNoShares⟩
                match recordTrade o w3 t with
                | .error e => .error e
                | .ok w4 => .ok (w4, t)

/-- `TradesService.executeBuy`: chooses by-amount (JavaScript-truthy
`dto.amount` wins) or by-shares, else rejects. -/
noncomputable def executeBuy (o : DbOracle) (w : World) (userId : ℕ)
    (dto : ExecuteTradeDto) : Except (Err × World) (World × TradeRow) :=
  let state : AMM.AMMState := ⟨w.market.yesShares, w.market.noShares⟩
  let b := w.market.liquidity
  let amt := dto.amount.getD 0
  let sh := dto.shares.getD 0
  if amt ≠ 0 then
    executeBuyCore o w userId dto.side state b
      (AMM.calculateSharesForAmount state dto.side amt b).1 amt
      (AMM.calculateSharesForAmount state dto.side amt b).2
  else if sh ≠ 0 then
    executeBuyCore o w userId dto.side state b
      sh (AMM.calculateBuyCost state dto.side sh b).cost
      (AMM.calculateBuyCost state dto.side sh b).avgPrice
  else .error (.invalidTrade, w)

/-- `TradesService.executeSell`. -/
noncomputable def executeSell (o : DbOracle) (w : World) (userId : ℕ)
    (dto : ExecuteTradeDto) : Except (Err × World) (World × TradeRow) :=
  let state : AMM.AMMState := ⟨w.market.yesShares, w.market.noShares⟩
  let b := w.market.liquidity
  let sh := dto.shares.getD 0
  if sh ≤ 0 then .error (.invalidTrade, w)
  else
    match findPosition w userId with
    | none => .error (.insufficientShares, w)
    | some p =>
        let currentShares := if dto.side = .yes then p.yesShares else p.noShares
        if currentShares < sh then .error (.insufficientShares, w)
        else
          match AMM.calculateSellReturn state dto.side sh b with
          | .error e => .error (e, w)
          | .ok sellResult =>
              match addFromTrade o w userId sellResult.amountReceived with
              | .error e => .error e
              | .ok w1 =>
                  match updateShares o w1 sellResult.newYesShares
                      sellResult.newNoShares sellResult.amountReceived with
                  | .error e => .error e
                  | .ok w2 =>
                      match upsertPosition o w2 userId dto.side sh
                          sellResult.avgPrice false with
                      | .error e => .error e
                      | .ok w3 =>
                          let grossAmount :=
                            sellResult.amountReceived / (1 - AMM.feeRate)
                          let fee := grossAmount - sellResult.amountReceived
                          let t : TradeRow := ⟨userId, .sell, dto.side, sh,
                            sellResult.avgPrice, sellResult.amountReceived, fee,
                            state.yesShares, state.noShares,
                            sellResult.newYesShares, sellResult.newNoShares⟩
                          match recordTrade o w3 t with
                          | .error e => .error e
                          | .ok w4 => .ok (w4, t)

/-- `TradesService.executeTrade`: market-open and trading-window checks,
then dispatch on the trade type. -/
noncomputable def executeTrade (o : DbOracle) (w : World) (userId : ℕ)
    (dto : ExecuteTradeDto) (now : ℝ) : Except (Err × World) (World × TradeRow) :=
  if w.market.status ≠ .active then .error (.marketClosed, w)
  else if now < w.market.startTime ∨ w.market.endTime < now then
    .error (.outOfWindow, w)
  else
    match dto.type with
    | .buy => executeBuy o w userId dto
    | .sell => executeSell o w userId dto

/-! ### Settlement (`TradesService.settleMarket`) -/

/-- Winning shares of a position row under outcome `oc`. -/
def settleWinning (oc : Outcome) (p : PositionRow) : ℝ :=
  if oc = .yes then p.pos.yesShares else p.pos.noShares

/-- `WalletsService.settlePosition` applied to the world: credit plus a
settlement transaction row. -/
noncomputable def creditSettlement (w : World) (u : ℕ) (amount : ℝ) : World :=
  { w with
    balances := fun v => if v = u then w.balances u + amount else w.balances v
    txs := w.txs ++ [(u, ⟨.settlement, amount, w.balances u, w.balances u + amount⟩)] }

/-- One iteration of the settlement loop: positions with positive
winning shares are credited one unit per winning share, the rest are
skipped. -/
noncomputable def settleOne (oc : Outcome) (w : World) (p : PositionRow) : World :=
  if 0 < settleWinning oc p then creditSettlement w p.userId (settleWinning oc p)
  else w

/-- `TradesService.settleMarket`: requires a resolved market with an
outcome, walks all positions of the market crediting the winners, and
returns `positions.length` — the total number of position rows. -/
noncomputable def settleMarket (w : World) : Except Err (World × ℕ) :=
  if w.market.status = .resolved then
    match w.market.outcome with
    | some oc => .ok (w.positions.foldl (settleOne oc) w, w.positions.length)
    | none => .error .notResolved
  else .error .notResolved

/-- The admin resolve endpoint (`AdminController.resolveMarket`): first
`MarketsService.resolveMarket`, then `TradesService.settleMarket`. -/
noncomputable def resolveAndSettle (w : World) (oc : Outcome) :
    Except (Err × World) (World × ℕ) :=
  match resolveMarket w.market oc with
  | .error e => .error (e, w)
  | .ok m2 =>
      match settleMarket { w with market := m2 } with
      | .error e => .error (e, { w with market := m2 })
      | .ok r => .ok r

end Exec

end SpeculateHub

namespace SpeculateHub

namespace Exec

/-! ### Step equations for the world-level operations -/

theorem deductForTrade_ok (o : DbOracle) (w : World) (u : ℕ) (amount : ℝ)
    (h : ¬ w.balances u < amount) (h2 : o .walletUpdate = true)
    (h3 : o .walletTxInsert = true) :
    deductForTrade o w u amount = .ok
      { w with
        balances := fun v => if v = u then w.balances u - amount else w.balances v
        txs := w.txs ++ [(u, ⟨.trade, -amount, w.balances u, w.balances u - amount⟩)] } := by
  unfold deductForTrade
  rw [if_neg h, if_neg (by simp [h2]), if_pos h3]

theorem addFromTrade_ok (o : DbOracle) (w : World) (u : ℕ) (amount : ℝ)
    (h2 : o .walletUpdate = true) (h3 : o .walletTxInsert = true) :
    addFromTrade o w u amount = .ok
      { w with
        balances := fun v => if v = u then w.balances u + amount else w.balances v
        txs := w.txs ++ [(u, ⟨.trade, amount, w.balances u, w.balances u + amount⟩)] } := by
  unfold addFromTrade
  rw [if_neg (by simp [h2]), if_pos h3]

theorem updateShares_ok (o : DbOracle) (w : World) (yes no volInc : ℝ)
    (h : o .marketUpdate = true) :
    updateShares o w yes no volInc = .ok { w with market := { w.market with
      yesShares := yes, noShares := no, volume := w.market.volume + volInc } } := by
  unfold updateShares
  rw [if_neg (by simp [h])]

theorem upsertPosition_new (o : DbOracle) (w : World) (u : ℕ) (side : Side)
    (d p : ℝ) (isBuy : Bool)
    (h : w.positions.find? (fun r => r.userId = u) = none)
    (ho : o .positionWrite = true) :
    upsertPosition o w u side d p isBuy = .ok { w with positions :=
      w.positions ++ [⟨u, Positions.createOrUpdate (findPosition w u) side d p isBuy⟩] } := by
  unfold upsertPosition
  rw [if_neg (by simp [ho]), h]

theorem upsertPosition_upd (o : DbOracle) (w : World) (u : ℕ) (side : Side)
    (d p : ℝ) (isBuy : Bool) (r0 : PositionRow)
    (h : w.positions.find? (fun r => r.userId = u) = some r0)
    (ho : o .positionWrite = true) :
    upsertPosition o w u side d p isBuy = .ok { w with positions :=
      (w.positions.map (fun r => if r.userId = u then
        ⟨u, Positions.createOrUpdate (findPosition w u) side d p isBuy⟩ else r)) } := by
  unfold upsertPosition
  rw [if_neg (by simp [ho]), h]

theorem recordTrade_ok (o : DbOracle) (w : World) (t : TradeRow)
    (h : o .tradeInsert = true) :
    recordTrade o w t = .ok { w with trades := w.trades ++ [t] } := by
  unfold recordTrade
  rw [if_neg (by simp [h])]

theorem recordTrade_err (o : DbOracle) (w : World) (t : TradeRow)
    (h : o .tradeInsert = false) :
    recordTrade o w t = .error (.internal, w) := by
  unfold recordTrade
  rw [if_pos h]

end Exec

/-- Counterexample to C4 as stated.  A sell request supplying BOTH
`amount` and `shares` does not fail with InvalidTrade: the executor
ignores `amount` on sells and executes the trade.  (On buys, `amount`
silently takes precedence instead.) -/
theorem trade_both_fields_cex :
    ∃ r, Exec.executeTrade dbOk
      ⟨fun _ => 100, [], ⟨.active, none, 5, 5, 100, 0, 0, 100⟩,
        [⟨0, ⟨2, 5, 1 / 2, 1 / 2⟩⟩], []⟩
      0 ⟨.sell, .no, some 7, some 3⟩ 50 = .ok r := by
  have hq1 : AMM.sellNewQYes ⟨5, 5⟩ .no 3 = 5 := by
    unfold AMM.sellNewQYes
    rw [sellNewQYesRaw_no]
    norm_num
  have hq2 : AMM.sellNewQNo ⟨5, 5⟩ .no 3 = 2 := by
    unfold AMM.sellNewQNo
    rw [sellNewQNoRaw_no]
    norm_num
  have hraw : ¬ (AMM.rawSellReturn ⟨5, 5⟩ .no 3 100 ≤ 0) := by
    unfold AMM.rawSellReturn
    rw [hq1, hq2]
    unfold AMM.cost
    push_neg
    have hlt : Real.log (Real.exp ((5:ℝ) / 100) + Real.exp ((2:ℝ) / 100)) <
        Real.log (Real.exp ((5:ℝ) / 100) + Real.exp ((5:ℝ) / 100)) := by
      apply Real.log_lt_log (by positivity)
      have := Real.exp_lt_exp.mpr (show (2:ℝ) / 100 < 5 / 100 by norm_num)
      linarith
    nlinarith
  have hsell := AMM.calculateSellReturn_ok ⟨5, 5⟩ .no 3 100
    (by rintro ⟨h, -⟩; exact Outcome.noConfusion h) (by norm_num) hraw
  have hno := eq_false (show ¬ (Outcome.no = Outcome.yes) by decide)
  unfold Exec.executeTrade Exec.executeSell
  norm_num [Exec.findPosition, List.find?, hsell, Exec.addFromTrade,
    Exec.updateShares, Exec.upsertPosition, Exec.recordTrade, dbOk, hno]

end SpeculateHub

namespace SpeculateHub

/-- **C4, amended.**  On an open market inside the trading window: a buy
request supplying neither `amount` nor `shares` (by JavaScript
truthiness) fails with InvalidTrade and writes nothing; a sell request
without positive `shares` fails with InvalidTrade and writes nothing;
but a request supplying BOTH fields does not fail — on a buy the
`amount` takes precedence (the run is identical to the same request
without `shares`), and on a sell the `amount` is ignored (the run is
identical to the same request without `amount`). -/
theorem trade_param_validation_amended (o : DbOracle) (w : World) (u : ℕ)
    (dto : ExecuteTradeDto) (now : ℝ)
    (hact : w.market.status = .active)
    (hwin : ¬(now < w.market.startTime ∨ w.market.endTime < now)) :
    (dto.type = .buy → dto.amount.getD 0 = 0 → dto.shares.getD 0 = 0 →
      Exec.executeTrade o w u dto now = .error (.invalidTrade, w)) ∧
    (dto.type = .sell → dto.shares.getD 0 ≤ 0 →
      Exec.executeTrade o w u dto now = .error (.invalidTrade, w)) ∧
    (dto.type = .buy → dto.amount.getD 0 ≠ 0 →
      Exec.executeTrade o w u dto now =
        Exec.executeTrade o w u { dto with shares := none } now) ∧
    (dto.type = .sell →
      Exec.executeTrade o w u dto now =
        Exec.executeTrade o w u { dto with amount := none } now) := by
  obtain ⟨ty, side, amount, shares⟩ := dto
  have hstat : ¬ (w.market.status ≠ Status.active) := fun h => h hact
  refine ⟨?_, ?_, ?_, ?_⟩
  · intro hty hamt hsh
    simp only at hty
    subst hty
    unfold Exec.executeTrade
    rw [if_neg hstat, if_neg hwin]
    unfold Exec.executeBuy
    simp only at hamt hsh
    rw [if_neg (fun h => h hamt), if_neg (fun h => h hsh)]
  · intro hty hsh
    simp only at hty
    subst hty
    unfold Exec.executeTrade
    rw [if_neg hstat, if_neg hwin]
    unfold Exec.executeSell
    simp only at hsh
    rw [if_pos hsh]
  · intro hty hamt
    simp only at hty
    subst hty
    simp only at hamt
    unfold Exec.executeTrade Exec.executeBuy
    simp only [if_neg hstat, if_neg hwin]
    simp only [if_pos hamt]
  · intro hty
    simp only at hty
    subst hty
    rfl

/-- Witness for C4 (amended), with each hypothesis discharged at a
concrete open market: a buy with neither field and a sell without shares
fail with InvalidTrade and no writes; a buy and a sell with both fields
run exactly as with the ignored field absent. -/
theorem trade_param_validation_amended_witness :
    (Exec.executeTrade dbOk
        ⟨fun _ => 100, [], ⟨.active, none, 0, 0, 1000, 0, 0, 100⟩, [], []⟩ 0
        ⟨.buy, .yes, none, none⟩ 50 =
      .error (.invalidTrade,
        ⟨fun _ => 100, [], ⟨.active, none, 0, 0, 1000, 0, 0, 100⟩, [], []⟩)) ∧
    (Exec.executeTrade dbOk
        ⟨fun _ => 100, [], ⟨.active, none, 0, 0, 1000, 0, 0, 100⟩, [], []⟩ 0
        ⟨.sell, .yes, some 7, none⟩ 50 =
      .error (.invalidTrade,
        ⟨fun _ => 100, [], ⟨.active, none, 0, 0, 1000, 0, 0, 100⟩, [], []⟩)) ∧
    (Exec.executeTrade dbOk
        ⟨fun _ => 100, [], ⟨.active, none, 0, 0, 1000, 0, 0, 100⟩, [], []⟩ 0
        ⟨.buy, .yes, some 10, some 5⟩ 50 =
      Exec.executeTrade dbOk
        ⟨fun _ => 100, [], ⟨.active, none, 0, 0, 1000, 0, 0, 100⟩, [], []⟩ 0
        ⟨.buy, .yes, some 10, none⟩ 50) ∧
    (Exec.executeTrade dbOk
        ⟨fun _ => 100, [], ⟨.active, none, 0, 0, 1000, 0, 0, 100⟩, [], []⟩ 0
        ⟨.sell, .no, some 7, some 3⟩ 50 =
      Exec.executeTrade dbOk
        ⟨fun _ => 100, [], ⟨.active, none, 0, 0, 1000, 0, 0, 100⟩, [], []⟩ 0
        ⟨.sell, .no, none, some 3⟩ 50) :=
  ⟨(trade_param_validation_amended dbOk
      ⟨fun _ => 100, [], ⟨.active, none, 0, 0, 1000, 0, 0, 100⟩, [], []⟩ 0
      ⟨.buy, .yes, none, none⟩ 50 rfl (by norm_num)).1 rfl rfl rfl,
    (trade_param_validation_amended dbOk
      ⟨fun _ => 100, [], ⟨.active, none, 0, 0, 1000, 0, 0, 100⟩, [], []⟩ 0
      ⟨.sell, .yes, some 7, none⟩ 50 rfl (by norm_num)).2.1 rfl (by norm_num),
    (trade_param_validation_amended dbOk
      ⟨fun _ => 100, [], ⟨.active, none, 0, 0, 1000, 0, 0, 100⟩, [], []⟩ 0
      ⟨.buy, .yes, some 10, some 5⟩ 50 rfl (by norm_num)).2.2.1 rfl (by norm_num),
    (trade_param_validation_amended dbOk
      ⟨fun _ => 100, [], ⟨.active, none, 0, 0, 1000, 0, 0, 100⟩, [], []⟩ 0
      ⟨.sell, .no, some 7, some 3⟩ 50 rfl (by norm_num)).2.2.2 rfl⟩

end SpeculateHub

namespace SpeculateHub

theorem round6_cost_cap2 : round6 ((51 : ℝ) / 25) = 51 / 25 := by
  have h := round6_intMul 2040000
  norm_num at h
  exact h

/-- **C1 (code bug).**  The executor wraps no transaction around the
trade steps: when the final `trades` insert fails, the trade surfaces an
error, yet the wallet remains debited, the market AMM state and volume
remain updated and the position remains upserted — partial state
contradicting the atomicity the specification requires.  Concrete run:
buy 2 YES shares on a fresh active market (b = 1000), wallet balance
100, with the `trades` insert failing. -/
theorem executeBuy_partial_write_cex :
    ∃ e w1, Exec.executeTrade dbNoTradeInsert
        ⟨fun _ => 100, [], ⟨.active, none, 0, 0, 1000, 0, 0, 100⟩, [], []⟩
        0 ⟨.buy, .yes, none, some 2⟩ 50 = .error (e, w1) ∧
      w1.balances 0 < 100 ∧
      w1.market.yesShares = 2 ∧
      w1.positions ≠ [] := by
  have hb : (0:ℝ) < 1000 := by norm_num
  have hs2 : (0:ℝ) < 2 := by norm_num
  have hraw_lt := AMM.rawBuyCost_lt ⟨0, 0⟩ .yes 2 1000 hb hs2
  have hraw_ge : 1 ≤ AMM.rawBuyCost ⟨0, 0⟩ .yes 2 1000 := by
    have hform : AMM.rawBuyCost ⟨0, 0⟩ .yes 2 1000 =
        1000 * Real.log (Real.exp ((1:ℝ) / 500) + 1) - 1000 * Real.log 2 := by
      unfold AMM.rawBuyCost AMM.cost AMM.buyNewQYes AMM.buyNewQNo
      norm_num [Real.exp_zero]
    rw [hform]
    have hmul : Real.exp ((1:ℝ) / 1000) * Real.exp ((1:ℝ) / 1000) =
        Real.exp ((1:ℝ) / 500) := by
      rw [← Real.exp_add]
      norm_num
    have hAM : 2 * Real.exp ((1:ℝ) / 1000) ≤ Real.exp ((1:ℝ) / 500) + 1 := by
      nlinarith [sq_nonneg (Real.exp ((1:ℝ) / 1000) - 1)]
    have hlog := Real.log_le_log (by positivity) hAM
    rw [Real.log_mul (by norm_num) (Real.exp_ne_zero _), Real.log_exp] at hlog
    nlinarith
  have hcosteq : (AMM.calculateBuyCost ⟨0, 0⟩ .yes 2 1000).cost =
      round6 (AMM.rawBuyCost ⟨0, 0⟩ .yes 2 1000 +
        AMM.rawBuyCost ⟨0, 0⟩ .yes 2 1000 * AMM.feeRate) := rfl
  have hcost_lo : 51 / 50 ≤ (AMM.calculateBuyCost ⟨0, 0⟩ .yes 2 1000).cost := by
    rw [hcosteq]
    calc (51:ℝ) / 50 = round6 (51 / 50) := round6_fee_cap.symm
      _ ≤ _ := round6_mono (by rw [feeRate_eq]; nlinarith)
  have hcost_hi : (AMM.calculateBuyCost ⟨0, 0⟩ .yes 2 1000).cost ≤ 51 / 25 := by
    rw [hcosteq]
    calc round6 (AMM.rawBuyCost ⟨0, 0⟩ .yes 2 1000 +
          AMM.rawBuyCost ⟨0, 0⟩ .yes 2 1000 * AMM.feeRate)
        ≤ round6 (51 / 25) := round6_mono (by rw [feeRate_eq]; nlinarith)
      _ = 51 / 25 := round6_cost_cap2
  have hnotbal : ¬ ((100:ℝ) < (AMM.calculateBuyCost ⟨0, 0⟩ .yes 2 1000).cost) := by
    push_neg
    linarith
  have hded := Exec.deductForTrade_ok dbNoTradeInsert
    ⟨fun _ => 100, [], ⟨.active, none, 0, 0, 1000, 0, 0, 100⟩, [], []⟩ 0
    ((AMM.calculateBuyCost ⟨0, 0⟩ .yes 2 1000).cost) hnotbal rfl rfl
  unfold Exec.executeTrade Exec.executeBuy Exec.executeBuyCore
  norm_num [hded, Exec.updateShares_ok, Exec.upsertPosition_new, Exec.recordTrade_err,
    Exec.findPosition, List.find?, dbNoTradeInsert, AMM.buyNewQYes, AMM.buyNewQNo]
  refine ⟨Err.internal, _, ⟨rfl, rfl⟩, ?_, ?_, ?_⟩
  · show (fun v => if v = 0 then
        100 - (AMM.calculateBuyCost ⟨0, 0⟩ .yes 2 1000).cost else 100) 0 < 100
    norm_num
    linarith
  · show (AMM.calculateBuyCost ⟨0, 0⟩ .yes 2 1000).newYesShares = 2
    have hny : (AMM.calculateBuyCost ⟨0, 0⟩ .yes 2 1000).newYesShares =
        AMM.buyNewQYes ⟨0, 0⟩ .yes 2 := rfl
    rw [hny]
    unfold AMM.buyNewQYes
    norm_num
  · simp

end SpeculateHub

namespace SpeculateHub

/-- Number of settlement-kind wallet transaction rows of user `u` with
amount `a` in a transaction log. -/
noncomputable def countSettle (l : List (ℕ × WalletTx)) (u : ℕ) (a : ℝ) : ℕ :=
  (l.filter (fun t => decide (t.1 = u ∧ t.2.kind = .settlement ∧ t.2.amount = a))).length

theorem countSettle_append (l1 l2 : List (ℕ × WalletTx)) (u : ℕ) (a : ℝ) :
    countSettle (l1 ++ l2) u a = countSettle l1 u a + countSettle l2 u a := by
  unfold countSettle
  rw [List.filter_append, List.length_append]

theorem countSettle_single_hit (u : ℕ) (a x y : ℝ) :
    countSettle [(u, ⟨.settlement, a, x, y⟩)] u a = 1 := by
  unfold countSettle
  simp

theorem countSettle_single_other (v u : ℕ) (tx : WalletTx) (a : ℝ)
    (h : v ≠ u) :
    countSettle [(v, tx)] u a = 0 := by
  unfold countSettle
  simp [h]

namespace Exec

theorem settleOne_market (oc : Outcome) (w : World) (p : PositionRow) :
    (settleOne oc w p).market = w.market := by
  unfold settleOne creditSettlement
  split <;> rfl

theorem settleOne_positions (oc : Outcome) (w : World) (p : PositionRow) :
    (settleOne oc w p).positions = w.positions := by
  unfold settleOne creditSettlement
  split <;> rfl

theorem settleOne_trades (oc : Outcome) (w : World) (p : PositionRow) :
    (settleOne oc w p).trades = w.trades := by
  unfold settleOne creditSettlement
  split <;> rfl

theorem settleOne_balances_other (oc : Outcome) (w : World) (p : PositionRow)
    (u : ℕ) (h : p.userId ≠ u) :
    (settleOne oc w p).balances u = w.balances u := by
  unfold settleOne creditSettlement
  split
  · dsimp only
    rw [if_neg (fun hh => h hh.symm)]
  · rfl

theorem settleOne_count_other (oc : Outcome) (w : World) (p : PositionRow)
    (u : ℕ) (a : ℝ) (h : p.userId ≠ u) :
    countSettle (settleOne oc w p).txs u a = countSettle w.txs u a := by
  unfold settleOne creditSettlement
  split
  · show countSettle (w.txs ++ [(p.userId, _)]) u a = countSettle w.txs u a
    rw [countSettle_append, countSettle_single_other p.userId u _ a h]
    omega
  · rfl

theorem settleOne_self_pos (oc : Outcome) (w : World) (p : PositionRow)
    (h : 0 < settleWinning oc p) :
    (settleOne oc w p).balances p.userId =
      w.balances p.userId + settleWinning oc p ∧
    countSettle (settleOne oc w p).txs p.userId (settleWinning oc p) =
      countSettle w.txs p.userId (settleWinning oc p) + 1 := by
  unfold settleOne creditSettlement
  rw [if_pos h]
  constructor
  · simp
  · show countSettle (w.txs ++ [(p.userId, _)]) _ _ = _
    rw [countSettle_append, countSettle_single_hit]

theorem settleOne_self_neg (oc : Outcome) (w : World) (p : PositionRow)
    (h : ¬ 0 < settleWinning oc p) :
    settleOne oc w p = w := by
  unfold settleOne
  rw [if_neg h]

/-- Per-position effect of the settlement loop over a list of rows with
pairwise-distinct users. -/
theorem settleFold_spec (oc : Outcome) (ps : List PositionRow) :
    ∀ (w : World), ps.Pairwise (fun a c => a.userId ≠ c.userId) →
      ((ps.foldl (settleOne oc) w).market = w.market ∧
        (ps.foldl (settleOne oc) w).positions = w.positions ∧
        (ps.foldl (settleOne oc) w).trades = w.trades) ∧
      (∀ u (a : ℝ), (∀ p ∈ ps, p.userId ≠ u) →
        (ps.foldl (settleOne oc) w).balances u = w.balances u ∧
        countSettle (ps.foldl (settleOne oc) w).txs u a =
          countSettle w.txs u a) ∧
      (∀ p ∈ ps,
        (0 < settleWinning oc p →
          (ps.foldl (settleOne oc) w).balances p.userId =
            w.balances p.userId + settleWinning oc p ∧
          countSettle (ps.foldl (settleOne oc) w).txs p.userId
              (settleWinning oc p) =
            countSettle w.txs p.userId (settleWinning oc p) + 1) ∧
        (settleWinning oc p ≤ 0 →
          (ps.foldl (settleOne oc) w).balances p.userId = w.balances p.userId ∧
          ∀ a, countSettle (ps.foldl (settleOne oc) w).txs p.userId a =
            countSettle w.txs p.userId a)) := by
  induction ps with
  | nil =>
      intro w _
      refine ⟨⟨rfl, rfl, rfl⟩, fun u a _ => ⟨rfl, rfl⟩, fun p hp => ?_⟩
      exact absurd hp (List.not_mem_nil p)
  | cons q rest ih =>
      intro w hp
      obtain ⟨hq_rest, hrest_pw⟩ := List.pairwise_cons.mp hp
      have IH := ih (settleOne oc w q) hrest_pw
      rw [List.foldl_cons]
      obtain ⟨⟨ihm, ihp, iht⟩, ihu, ihpos⟩ := IH
      refine ⟨⟨?_, ?_, ?_⟩, ?_, ?_⟩
      · rw [ihm, settleOne_market]
      · rw [ihp, settleOne_positions]
      · rw [iht, settleOne_trades]
      · intro u a hnot
        have hqu : q.userId ≠ u := hnot q (List.mem_cons_self q rest)
        have hrest : ∀ p ∈ rest, p.userId ≠ u :=
          fun p hpmem => hnot p (List.mem_cons_of_mem q hpmem)
        obtain ⟨hb, hc⟩ := ihu u a hrest
        exact ⟨hb.trans (settleOne_balances_other oc w q u hqu),
          hc.trans (settleOne_count_other oc w q u a hqu)⟩
      · intro p hpmem
        rcases List.mem_cons.mp hpmem with heq | hmem
        · subst heq
          have hrest : ∀ r ∈ rest, r.userId ≠ p.userId :=
            fun r hr => (hq_rest r hr).symm
          constructor
          · intro hwin
            obtain ⟨hb1, hc1⟩ := settleOne_self_pos oc w p hwin
            obtain ⟨hb2, hc2⟩ := ihu p.userId (settleWinning oc p) hrest
            exact ⟨hb2.trans hb1, hc2.trans hc1⟩
          · intro hwin
            have hskip := settleOne_self_neg oc w p (not_lt.mpr hwin)
            rw [hskip]
            obtain ⟨hb2, hc2⟩ := ihu p.userId 0 hrest
            refine ⟨?_, ?_⟩
            · have := (ihu p.userId 0 hrest).1
              rw [hskip] at this
              exact this
            · intro a
              have := (ihu p.userId a hrest).2
              rw [hskip] at this
              exact this
        · have hqp : q.userId ≠ p.userId := hq_rest p hmem
          obtain ⟨hcl1, hcl2⟩ := ihpos p hmem
          constructor
          · intro hwin
            obtain ⟨hb, hc⟩ := hcl1 hwin
            rw [settleOne_balances_other oc w q p.userId hqp] at hb
            rw [settleOne_count_other oc w q p.userId (settleWinning oc p) hqp] at hc
            exact ⟨hb, hc⟩
          · intro hwin
            obtain ⟨hb, hc⟩ := hcl2 hwin
            rw [settleOne_balances_other oc w q p.userId hqp] at hb
            refine ⟨hb, fun a => ?_⟩
            have := hc a
            rw [settleOne_count_other oc w q p.userId a hqp] at this
            exact this

end Exec

end SpeculateHub

namespace SpeculateHub

/-- Counterexample to C2 as stated.  A resolved-YES market with two
positions — one winning (5 YES shares), one holding only NO shares —
settles: `settleMarket` reports 2 settled positions, yet only 1 position
was credited. -/
theorem settleMarket_count_cex :
    ∃ w2, Exec.settleMarket
        ⟨fun _ => 100, [], ⟨.resolved, some .yes, 0, 0, 1000, 0, 0, 100⟩,
          [⟨0, ⟨5, 0, 1 / 2, 0⟩⟩, ⟨1, ⟨0, 3, 0, 1 / 2⟩⟩], []⟩ = .ok (w2, 2) ∧
      (([⟨0, ⟨5, 0, 1 / 2, 0⟩⟩, ⟨1, ⟨0, 3, 0, 1 / 2⟩⟩] : List PositionRow).filter
        (fun p => decide (0 < Exec.settleWinning .yes p))).length = 1 := by
  refine ⟨(([⟨0, ⟨5, 0, 1 / 2, 0⟩⟩, ⟨1, ⟨0, 3, 0, 1 / 2⟩⟩] : List PositionRow).foldl
      (Exec.settleOne .yes)
      ⟨fun _ => 100, [], ⟨.resolved, some .yes, 0, 0, 1000, 0, 0, 100⟩,
        [⟨0, ⟨5, 0, 1 / 2, 0⟩⟩, ⟨1, ⟨0, 3, 0, 1 / 2⟩⟩], []⟩), ?_, ?_⟩
  · unfold Exec.settleMarket
    rw [if_pos rfl]
    rfl
  · norm_num [Exec.settleWinning, List.filter]

/-- **C2, amended.**  For a resolved market with outcome `oc` (position
rows having pairwise-distinct owners, as the unique (user, market)
constraint guarantees), settlement credits each position whose
winning-side shares are positive with exactly those shares — one unit
per winning share, recorded as exactly one settlement transaction of
that amount — credits nothing for any other position or user, leaves the
position rows, the market row and the trade log unmodified, and returns
the TOTAL number of position rows on the market (not the number
credited, as originally claimed). -/
theorem settleMarket_amended (w : World) (oc : Outcome)
    (hst : w.market.status = .resolved) (hout : w.market.outcome = some oc)
    (hdist : w.positions.Pairwise (fun a c => a.userId ≠ c.userId)) :
    ∃ w2, Exec.settleMarket w = .ok (w2, w.positions.length) ∧
      w2.positions = w.positions ∧ w2.market = w.market ∧ w2.trades = w.trades ∧
      (∀ p ∈ w.positions,
        (0 < Exec.settleWinning oc p →
          w2.balances p.userId = w.balances p.userId + Exec.settleWinning oc p ∧
          countSettle w2.txs p.userId (Exec.settleWinning oc p) =
            countSettle w.txs p.userId (Exec.settleWinning oc p) + 1) ∧
        (Exec.settleWinning oc p ≤ 0 →
          w2.balances p.userId = w.balances p.userId ∧
          ∀ a, countSettle w2.txs p.userId a = countSettle w.txs p.userId a)) ∧
      (∀ u, (∀ p ∈ w.positions, p.userId ≠ u) → w2.balances u = w.balances u) := by
  obtain ⟨⟨hm, hpp, ht⟩, hu, hpos⟩ := Exec.settleFold_spec oc w.positions w hdist
  refine ⟨w.positions.foldl (Exec.settleOne oc) w, ?_, hpp, hm, ht, hpos,
    fun u hnot => (hu u 0 hnot).1⟩
  unfold Exec.settleMarket
  rw [if_pos hst, hout]

/-- Witness for C2 (amended) at a concrete resolved market with one
winning position. -/
theorem settleMarket_amended_witness :
    ∃ w2, Exec.settleMarket
        ⟨fun _ => 100, [], ⟨.resolved, some .yes, 0, 0, 1000, 0, 0, 100⟩,
          [⟨0, ⟨5, 0, 1 / 2, 0⟩⟩], []⟩ = .ok (w2,
        ([⟨0, ⟨5, 0, 1 / 2, 0⟩⟩] : List PositionRow).length) ∧
      w2.positions = [⟨0, ⟨5, 0, 1 / 2, 0⟩⟩] ∧
      w2.market = ⟨.resolved, some .yes, 0, 0, 1000, 0, 0, 100⟩ ∧
      w2.trades = [] ∧
      (∀ p ∈ ([⟨0, ⟨5, 0, 1 / 2, 0⟩⟩] : List PositionRow),
        (0 < Exec.settleWinning .yes p →
          w2.balances p.userId = (fun _ => (100:ℝ)) p.userId + Exec.settleWinning .yes p ∧
          countSettle w2.txs p.userId (Exec.settleWinning .yes p) =
            countSettle [] p.userId (Exec.settleWinning .yes p) + 1) ∧
        (Exec.settleWinning .yes p ≤ 0 →
          w2.balances p.userId = (fun _ => (100:ℝ)) p.userId ∧
          ∀ a, countSettle w2.txs p.userId a = countSettle [] p.userId a)) ∧
      (∀ u, (∀ p ∈ ([⟨0, ⟨5, 0, 1 / 2, 0⟩⟩] : List PositionRow), p.userId ≠ u) →
        w2.balances u = (fun _ => (100:ℝ)) u) :=
  settleMarket_amended
    ⟨fun _ => 100, [], ⟨.resolved, some .yes, 0, 0, 1000, 0, 0, 100⟩,
      [⟨0, ⟨5, 0, 1 / 2, 0⟩⟩], []⟩ .yes rfl rfl (by simp)

/-- Counterexample to C3 as stated.  Settlement is not idempotent at the
level of `settleMarket` itself: a second direct invocation on the
already-settled market credits the winner again (balance 100 → 105 →
110), because positions are kept and no settled flag exists. -/
theorem settleMarket_repeat_cex :
    ∃ w1 n1 w2 n2, Exec.settleMarket
        ⟨fun _ => 100, [], ⟨.resolved, some .yes, 0, 0, 1000, 0, 0, 100⟩,
          [⟨0, ⟨5, 0, 1 / 2, 0⟩⟩], []⟩ = .ok (w1, n1) ∧
      w1.balances 0 = 105 ∧
      Exec.settleMarket w1 = .ok (w2, n2) ∧
      w2.balances 0 = 110 := by
  have hdist : ([⟨0, ⟨5, 0, 1 / 2, 0⟩⟩] : List PositionRow).Pairwise
      (fun a c => a.userId ≠ c.userId) := by simp
  have hwin : (0:ℝ) < Exec.settleWinning .yes ⟨0, ⟨5, 0, 1 / 2, 0⟩⟩ := by
    norm_num [Exec.settleWinning]
  obtain ⟨⟨hm1, hp1, ht1⟩, hu1, hpos1⟩ := Exec.settleFold_spec .yes
    [⟨0, ⟨5, 0, 1 / 2, 0⟩⟩]
    ⟨fun _ => 100, [], ⟨.resolved, some .yes, 0, 0, 1000, 0, 0, 100⟩,
      [⟨0, ⟨5, 0, 1 / 2, 0⟩⟩], []⟩ hdist
  have hb1 := (hpos1 ⟨0, ⟨5, 0, 1 / 2, 0⟩⟩ (by simp)).1 hwin
  obtain ⟨⟨hm2, hp2, ht2⟩, hu2, hpos2⟩ := Exec.settleFold_spec .yes
    [⟨0, ⟨5, 0, 1 / 2, 0⟩⟩]
    (([⟨0, ⟨5, 0, 1 / 2, 0⟩⟩] : List PositionRow).foldl (Exec.settleOne .yes)
      ⟨fun _ => 100, [], ⟨.resolved, some .yes, 0, 0, 1000, 0, 0, 100⟩,
        [⟨0, ⟨5, 0, 1 / 2, 0⟩⟩], []⟩) hdist
  have hb2 := (hpos2 ⟨0, ⟨5, 0, 1 / 2, 0⟩⟩ (by simp)).1 hwin
  refine ⟨(([⟨0, ⟨5, 0, 1 / 2, 0⟩⟩] : List PositionRow).foldl (Exec.settleOne .yes)
      ⟨fun _ => 100, [], ⟨.resolved, some .yes, 0, 0, 1000, 0, 0, 100⟩,
        [⟨0, ⟨5, 0, 1 / 2, 0⟩⟩], []⟩), 1,
    (([⟨0, ⟨5, 0, 1 / 2, 0⟩⟩] : List PositionRow).foldl (Exec.settleOne .yes)
      (([⟨0, ⟨5, 0, 1 / 2, 0⟩⟩] : List PositionRow).foldl (Exec.settleOne .yes)
        ⟨fun _ => 100, [], ⟨.resolved, some .yes, 0, 0, 1000, 0, 0, 100⟩,
          [⟨0, ⟨5, 0, 1 / 2, 0⟩⟩], []⟩)), 1, ?_, ?_, ?_, ?_⟩
  · unfold Exec.settleMarket
    rw [if_pos rfl]
    rfl
  · rw [hb1.1]
    norm_num [Exec.settleWinning]
  · unfold Exec.settleMarket
    rw [if_pos (by rw [hm1])]
    have houtc : (([⟨0, ⟨5, 0, 1 / 2, 0⟩⟩] : List PositionRow).foldl (Exec.settleOne .yes)
        ⟨fun _ => 100, [], ⟨.resolved, some .yes, 0, 0, 1000, 0, 0, 100⟩,
          [⟨0, ⟨5, 0, 1 / 2, 0⟩⟩], []⟩).market.outcome = some .yes := by
      rw [hm1]
    rw [houtc, hp1]
    rfl
  · rw [hb2.1, hb1.1]
    norm_num [Exec.settleWinning]

/-- **C3, amended.**  Idempotence holds at the level of the admin
resolve-then-settle chain, which is the only caller of settlement: a
second invocation on an already-resolved market fails at
`resolveMarket` with InvalidTransition before settlement runs, leaving
the world unchanged, so no additional funds are credited.  Direct
re-invocation of `settleMarket` alone, by contrast, credits the winners
again. -/
theorem resolveAndSettle_amended (w : World) (oc : Outcome)
    (h : w.market.status = .resolved) :
    Exec.resolveAndSettle w oc = .error (.invalidTransition, w) := by
  unfold Exec.resolveAndSettle resolveMarket
  rw [h]
  rw [if_neg (by rintro (h2 | h2) <;> exact Status.noConfusion h2)]

/-- Witness for C3 (amended) at a concrete resolved world. -/
theorem resolveAndSettle_amended_witness :
    Exec.resolveAndSettle
      ⟨fun _ => 100, [], ⟨.resolved, some .yes, 0, 0, 1000, 0, 0, 100⟩,
        [⟨0, ⟨5, 0, 1 / 2, 0⟩⟩], []⟩ .no =
      .error (.invalidTransition,
        ⟨fun _ => 100, [], ⟨.resolved, some .yes, 0, 0, 1000, 0, 0, 100⟩,
          [⟨0, ⟨5, 0, 1 / 2, 0⟩⟩], []⟩) :=
  resolveAndSettle_amended
    ⟨fun _ => 100, [], ⟨.resolved, some .yes, 0, 0, 1000, 0, 0, 100⟩,
      [⟨0, ⟨5, 0, 1 / 2, 0⟩⟩], []⟩ .no rfl

end SpeculateHub
